import Mathlib

/-!
# Verification of the generic value codec of `elastic-agent-shipper-client`

This file shallowly embeds the hand-written value codec of the repository:

* the tagged-union `Value` model (generated `messages` types; the generated
  file itself is absent from the snapshot, so the variant set is taken from
  the spec's §6 wire shape together with every variant referenced by the
  hand-written serializers in the snapshot, which adds the legacy
  `NumberValue` variant used by `pkg/proto/messages/json.go`);
* the tree serializer `Value.MarshalJSON` / `Struct.MarshalJSON` /
  `ListValue.MarshalJSON` of `pkg/proto/messages/json.go`, whose struct and
  list cases delegate to Go's `encoding/json.Marshal` (sorted keys, the
  standard escaping with HTML escaping enabled);
* the streaming serializer `Value.MarshalFastJSON` / `Struct.MarshalFastJSON`
  / `ListValue.MarshalFastJSON` (current revision, the one matching the
  width-preserving numeric variants), which writes into a `fastjson.Writer`
  buffer;
* the converter `NewValue` of `pkg/helpers` (modelled; see its doc comment).

Machine text is modelled as `List Char` (Go strings of the repository are
valid UTF-8; scalar-value sequences and UTF-8 byte sequences are ordered
identically, so Go's byte-wise map-key sort is char-wise sort here).

Float payloads (`float32`, `float64`, the legacy `number_value`) are kept
abstract: every definition is parameterised by the payload types and their
rendering functions, and no theorem below depends on how floats render.
-/

/-- Character-list text, the model of a Go `string`. -/
abbrev Str := List Char

/-! ## Decimal digits (Go `strconv.AppendInt` / `AppendUint`, base 10) -/

/-- Decimal digits of `n`, most significant first, prepended to `acc`;
`fuel` only bounds the recursion (any `fuel ≥ n` is exact), keeping the
definition structurally recursive so the kernel can evaluate it. -/
def natDigitsOn : Nat → Nat → List Char → List Char
  | 0, n, acc => Char.ofNat ('0'.toNat + n % 10) :: acc
  | fuel + 1, n, acc =>
      if n < 10 then Char.ofNat ('0'.toNat + n % 10) :: acc
      else natDigitsOn fuel (n / 10) (Char.ofNat ('0'.toNat + n % 10) :: acc)

/-- Decimal digit characters of a natural number (`strconv.AppendUint`). -/
def natChars (n : Nat) : List Char := natDigitsOn n n []

/-- Decimal characters of an integer (`strconv.AppendInt`). -/
def intChars (i : Int) : List Char :=
  (if i < 0 then ['-'] else []) ++ natChars i.natAbs

/-- `n` in decimal, left-padded with `'0'` to width `w` (Go `appendInt` with a
fixed width, as used by the time formatter). -/
def padChars (w : Nat) (n : Nat) : List Char :=
  List.replicate (w - (natChars n).length) '0' ++ natChars n

/-- Lowercase hexadecimal digit, as used by JSON `\u00xx` escapes. -/
def hexChar (n : Nat) : Char :=
  Char.ofNat (if n < 10 then 48 + n else 87 + n)

/-! ## Standard base64 (Go `encoding/base64.StdEncoding`) -/

/-- The standard base64 alphabet, as a character table. -/
def base64Table : List Char :=
  "ABCDEFGHIJKLMNOPQRSTUVWXYZabcdefghijklmnopqrstuvwxyz0123456789+/".data

/-- The alphabet character for a 6-bit group. -/
def base64Char (n : Nat) : Char := base64Table.getD (n % 64) 'A'

/-- Standard base64 with padding over a byte list (`base64.StdEncoding.EncodeToString`). -/
def base64Encode : List Nat → List Char
  | b1 :: b2 :: b3 :: rest =>
      let n := (b1 % 256) * 65536 + (b2 % 256) * 256 + b3 % 256
      base64Char (n / 262144) :: base64Char (n / 4096) :: base64Char (n / 64) ::
        base64Char n :: base64Encode rest
  | [b1, b2] =>
      let n := (b1 % 256) * 65536 + (b2 % 256) * 256
      [base64Char (n / 262144), base64Char (n / 4096), base64Char (n / 64), '=']
  | [b1] =>
      let n := (b1 % 256) * 65536
      [base64Char (n / 262144), base64Char (n / 4096), '=', '=']
  | [] => []

/-! ## JSON string escaping

Two escaping routines appear in the code under verification:

* `escStd` models Go's `encoding/json` string encoder with its default HTML
  escaping (used by the tree serializer for string values and object keys):
  `"` and `\` get a backslash escape, `\n`, `\r`, `\t` their two-character
  forms, every other control character below `0x20` becomes `\u00xx`, the
  HTML-sensitive `<`, `>`, `&` and the line separators `U+2028`/`U+2029`
  become their six-character backslash-u escape forms.
* `escFast` models `go.elastic.co/fastjson`'s `Writer.String` (used by the
  streaming serializer for string values): the same escapes without the
  HTML-character handling.

Both are per-scalar-value maps; the repository only feeds them valid UTF-8.
-/

/-- `\u00xx`-style escape of an arbitrary scalar value (low 16 bits). -/
def uEscape (n : Nat) : List Char :=
  ['\\', 'u', hexChar (n / 4096 % 16), hexChar (n / 256 % 16),
   hexChar (n / 16 % 16), hexChar (n % 16)]

/-- One character as escaped by Go `encoding/json` (HTML escaping on). -/
def escStd (c : Char) : List Char :=
  if c = '"' then ['\\', '"']
  else if c = '\\' then ['\\', '\\']
  else if c = '\n' then ['\\', 'n']
  else if c = '\r' then ['\\', 'r']
  else if c = '\t' then ['\\', 't']
  else if c.toNat < 0x20 then uEscape c.toNat
  else if c = '<' ∨ c = '>' ∨ c = '&' then uEscape c.toNat
  else if c.toNat = 0x2028 ∨ c.toNat = 0x2029 then uEscape c.toNat
  else [c]

/-- One character as escaped by `fastjson.Writer.String`. -/
def escFast (c : Char) : List Char :=
  if c = '"' then ['\\', '"']
  else if c = '\\' then ['\\', '\\']
  else if c = '\n' then ['\\', 'n']
  else if c = '\r' then ['\\', 'r']
  else if c = '\t' then ['\\', 't']
  else if c.toNat < 0x20 then uEscape c.toNat
  else if c.toNat = 0x2028 ∨ c.toNat = 0x2029 then uEscape c.toNat
  else [c]

/-- A character both escaping routines pass through unchanged and that a JSON
string parser treats as a literal: printable, not `"` or `\`, not one of the
HTML-escaped characters, not a line separator. -/
def plainChar (c : Char) : Bool :=
  0x20 ≤ c.toNat && c.toNat ≠ 34 && c.toNat ≠ 92 && c.toNat ≠ 60 && c.toNat ≠ 62 &&
    c.toNat ≠ 38 && c.toNat ≠ 0x2028 && c.toNat ≠ 0x2029

/-- A key that serializes identically whether escaped or interpolated raw. -/
def plainStr (s : Str) : Bool := s.all plainChar

/-! ## RFC3339 time formatting (Go `time`)

`timestamppb.Timestamp.AsTime()` is `time.Unix(seconds, nanos).UTC()`, which
floor-normalises the nanosecond field into seconds.  Formatting a UTC instant
with the `time.RFC3339Nano` layout produces
`YYYY-MM-DDThh:mm:ss[.fraction]Z` with the fractional digits of the
nanoseconds, trailing zeros stripped, and the dot omitted when no digits
remain.  The Gregorian date is computed from days since the epoch.
-/

/-- `time.Unix` normalisation: carry whole seconds out of the nanosecond
field so the remainder lies in `[0, 1e9)`. -/
def unixNorm (seconds nanos : Int) : Int × Nat :=
  (seconds + nanos.fdiv 1000000000, (nanos.fmod 1000000000).toNat)

/-- Proleptic Gregorian civil date `(year, month, day)` from days since
1970-01-01 (the standard era-based conversion, as the Go time package
computes it). -/
def civilFromDays (z0 : Int) : Int × Nat × Nat :=
  let z := z0 + 719468
  let era := z.fdiv 146097
  let doe := (z - era * 146097).toNat
  let yoe := (doe - doe / 1460 + doe / 36524 - doe / 146096) / 365
  let y := era * 400 + yoe
  let doy := doe - (365 * yoe + yoe / 4 - yoe / 100)
  let mp := (5 * doy + 2) / 153
  let d := doy - (153 * mp + 2) / 5 + 1
  let m := if mp < 10 then mp + 3 else mp - 9
  (y + (if m ≤ 2 then 1 else 0), m, d)

/-- The year of a (seconds-normalised) instant, for `MarshalJSON`'s range check. -/
def instantYear (seconds : Int) : Int := (civilFromDays (seconds.fdiv 86400)).1

/-- Digits of a year, width 4, minus sign first for negative years. -/
def yearChars (y : Int) : List Char :=
  (if y < 0 then ['-'] else []) ++ padChars 4 y.natAbs

/-- Strip trailing `'0'` characters. -/
def dropZeroTail (l : List Char) : List Char :=
  (l.reverse.dropWhile (fun c => c = '0')).reverse

/-- The fractional-seconds part of the `RFC3339Nano` layout: nine zero-padded
digits of the nanosecond count with trailing zeros stripped, preceded by a
dot; nothing at all when every digit is stripped. -/
def nanoFrac (nanos : Nat) : List Char :=
  let ds := dropZeroTail (padChars 9 nanos)
  if ds.isEmpty then [] else '.' :: ds

/-- A normalised UTC instant in the `time.RFC3339Nano` layout (no quotes). -/
def rfc3339NanoChars (seconds : Int) (nanos : Nat) : List Char :=
  let days := seconds.fdiv 86400
  let sod := (seconds.fmod 86400).toNat
  let ymd := civilFromDays days
  yearChars ymd.1 ++ '-' :: padChars 2 ymd.2.1 ++ '-' :: padChars 2 ymd.2.2 ++
    'T' :: padChars 2 (sod / 3600) ++ ':' :: padChars 2 (sod / 60 % 60) ++
    ':' :: padChars 2 (sod % 60) ++ nanoFrac nanos ++ ['Z']

/-! ## The Value model

The tagged union of `messages.Value` (generated code; absent from the
snapshot).  Variants are the spec §6 wire shape plus the legacy
`number_value` variant that `pkg/proto/messages/json.go` and the older
serializer revision still reference.  `unset` models a nil `*Value` or a
`Value` whose `Kind` field is nil — in both cases `GetKind()` returns nil and
serializers hit their `default` branch.  A nil `*Struct`/nil map (resp. nil
`*ListValue`/nil slice) both make `GetData()` (resp. `GetValues()`) return
nil and are modelled as `Option.none`; a nil `*timestamppb.Timestamp` reads
as the zero instant.  `α` and `β` are the abstract `float32`/`float64`
payload types. -/
inductive Value (α β : Type) : Type where
  | unset
  | nullValue
  | numberValue (f : β)
  | float32Value (f : α)
  | float64Value (f : β)
  | int32Value (n : Int)
  | int64Value (n : Int)
  | uint32Value (n : Nat)
  | uint64Value (n : Nat)
  | stringValue (s : Str)
  | boolValue (b : Bool)
  | structValue (data : Option (List (Str × Value α β)))
  | listValue (values : Option (List (Value α β)))
  | timestampValue (seconds : Int) (nanos : Int)

/-- Serialization failures, mirroring the `error` values of both serializers:
`unknownType` is the `"Unknown type %T in event"` default branch,
`yearRange` is `time.Time.MarshalJSON`'s year range error, and the wrapper
constructors mirror the `fmt.Errorf("...: %w", err)` wrapping at each level. -/
inductive JErr : Type where
  | unknownType
  | yearRange
  | within (e : JErr)
  | structWrap (e : JErr)
  | listWrap (e : JErr)
  | timeWrap (e : JErr)
  | mapEntry (e : JErr)
deriving DecidableEq

/-! ## Key sorting (Go `encoding/json` marshals maps in sorted key order) -/

/-- Byte-wise (= scalar-wise, for valid UTF-8) lexicographic strict order on
text, the order Go sorts map keys in. -/
def strLtB : Str → Str → Bool
  | _ :: _, [] => false
  | [], ys => !ys.isEmpty
  | x :: xs, y :: ys =>
      if x.toNat < y.toNat then true
      else if y.toNat < x.toNat then false
      else strLtB xs ys

/-- Insert into a key-sorted association list, keeping it sorted. -/
def insertByKey {γ : Type} (p : Str × γ) : List (Str × γ) → List (Str × γ)
  | [] => [p]
  | q :: rest => if strLtB q.1 p.1 then q :: insertByKey p rest else p :: q :: rest

/-- Sort an association list by key (insertion sort; Go sorts the key slice). -/
def sortByKey {γ : Type} : List (Str × γ) → List (Str × γ)
  | [] => []
  | p :: rest => insertByKey p (sortByKey rest)

/-! ## The tree serializer (`pkg/proto/messages/json.go`)

`Value.MarshalJSON` switches on the active variant; its `Struct` and
`ListValue` cases delegate to `encoding/json.Marshal` over the underlying map
and slice, which renders the map in sorted-key order with standard escaping
and stops at the first failing element.  The embedding first renders children
structurally, then sorts the rendered struct entries by key and joins —
rendering is pure, so this is the same output and the same first error as
Go's sort-then-render order.  `unset` models a `Value` whose `Kind` oneof is
nil (`GetKind()` returns nil, landing in the `default` branch). -/

section Serializers

variable {α β : Type}

/-- One rendered object member, `"key":value`, with the key escaped the same
way `encoding/json` escapes string values. -/
def stdKeyItem (k : Str) (v : List Char) : List Char :=
  '"' :: (k.flatMap escStd ++ ('"' :: (':' :: v)))

/-- Join rendered object members with commas; first error wins. -/
def objItems : List (Str × Except JErr (List Char)) → Except JErr (List Char)
  | [] => .ok []
  | [(k, r)] => do
      let v ← r
      pure (stdKeyItem k v)
  | (k, r) :: p :: rest => do
      let v ← r
      let tail ← objItems (p :: rest)
      pure (stdKeyItem k v ++ ',' :: tail)

/-- Join rendered array elements with commas; first error wins. -/
def arrItems : List (Except JErr (List Char)) → Except JErr (List Char)
  | [] => .ok []
  | [r] => r
  | r :: p :: rest => do
      let v ← r
      let tail ← arrItems (p :: rest)
      pure (v ++ ',' :: tail)

mutual

/-- `Value.MarshalJSON` of `pkg/proto/messages/json.go`.  `numR` renders the
legacy `number_value` float payload (`json.Marshal` on a `float64`); no
claim below depends on it. -/
def treeValue (numR : β → List Char) : Value α β → Except JErr (List Char)
  | .unset => .error .unknownType
  | .nullValue => .ok "null".data
  | .numberValue f => .ok (numR f)
  | .float32Value _ => .error .unknownType
  | .float64Value _ => .error .unknownType
  | .int32Value _ => .error .unknownType
  | .int64Value _ => .error .unknownType
  | .uint32Value _ => .error .unknownType
  | .uint64Value _ => .error .unknownType
  | .stringValue s => .ok ('"' :: (s.flatMap escStd ++ ['"']))
  | .boolValue b => .ok (if b then "true".data else "false".data)
  | .structValue d =>
      match treeStruct numR d with
      | .ok bs => .ok bs
      | .error e => .error (.within e)
  | .listValue l =>
      match treeList numR l with
      | .ok bs => .ok bs
      | .error e => .error (.within e)
  | .timestampValue s n =>
      let p := unixNorm s n
      if instantYear p.1 < 0 ∨ 10000 ≤ instantYear p.1 then .error (.timeWrap .yearRange)
      else .ok ('"' :: (rfc3339NanoChars p.1 p.2 ++ ['"']))

/-- `Struct.MarshalJSON`: `json.Marshal(sv.GetData())` — `null` for a nil
map, otherwise a sorted-key object — wrapping any failure. -/
def treeStruct (numR : β → List Char) : Option (List (Str × Value α β)) → Except JErr (List Char)
  | none => .ok "null".data
  | some entries =>
      match objItems (sortByKey (treeEntries numR entries)) with
      | .ok items => .ok ('{' :: (items ++ ['}']))
      | .error e => .error (.structWrap e)

/-- Children of a struct, rendered in entry order (pure, so order of
rendering does not matter; joining happens on the sorted list). -/
def treeEntries (numR : β → List Char) :
    List (Str × Value α β) → List (Str × Except JErr (List Char))
  | [] => []
  | (k, v) :: rest => (k, treeValue numR v) :: treeEntries numR rest

/-- `ListValue.MarshalJSON`: `json.Marshal(lv.GetValues())` — `null` for a
nil slice, otherwise an array — wrapping any failure. -/
def treeList (numR : β → List Char) : Option (List (Value α β)) → Except JErr (List Char)
  | none => .ok "null".data
  | some vs =>
      match arrItems (treeElems numR vs) with
      | .ok items => .ok ('[' :: (items ++ [']']))
      | .error e => .error (.listWrap e)

/-- Elements of a list, rendered in order. -/
def treeElems (numR : β → List Char) : List (Value α β) → List (Except JErr (List Char))
  | [] => []
  | v :: rest => treeValue numR v :: treeElems numR rest

end

/-! ## The streaming serializer (`MarshalFastJSON`, current revision)

The `fastjson.Writer` is a growing buffer; each function takes the buffer so
far and returns the extended buffer together with an optional error — on
error the bytes already written stay in the buffer, as they do in Go.
Key facts taken directly from the source: struct keys are written raw
(`w.RawString("\"")`, the key text, `"\":"`) with no escaping; a failing
struct entry aborts before the closing `'}'`; a failing list element's error
is discarded (`val.MarshalFastJSON(w)` with no error check) and the loop
continues. -/

mutual

/-- `Value.MarshalFastJSON` (the revision handling the width-preserving
numeric variants; the legacy `number_value` falls to the `default` branch).
`f32R`/`f64R` render the abstract float payloads (`w.Float32`/`w.Float64`);
no claim below depends on them. -/
def fastValue (f32R : α → List Char) (f64R : β → List Char) :
    Value α β → List Char → List Char × Option JErr
  | .unset, buf => (buf, some .unknownType)
  | .nullValue, buf => (buf ++ "null".data, none)
  | .numberValue _, buf => (buf, some .unknownType)
  | .float32Value f, buf => (buf ++ f32R f, none)
  | .float64Value f, buf => (buf ++ f64R f, none)
  | .int32Value n, buf => (buf ++ intChars n, none)
  | .int64Value n, buf => (buf ++ intChars n, none)
  | .uint32Value n, buf => (buf ++ natChars n, none)
  | .uint64Value n, buf => (buf ++ natChars n, none)
  | .stringValue s, buf => (buf ++ '"' :: (s.flatMap escFast ++ ['"']), none)
  | .boolValue b, buf => (buf ++ (if b then "true".data else "false".data), none)
  | .structValue d, buf =>
      match fastStruct f32R f64R d buf with
      | (b, none) => (b, none)
      | (b, some e) => (b, some (.within e))
  | .listValue l, buf =>
      match fastList f32R f64R l buf with
      | (b, none) => (b, none)
      | (b, some e) => (b, some (.within e))
  | .timestampValue s n, buf =>
      let p := unixNorm s n
      (buf ++ '"' :: (rfc3339NanoChars p.1 p.2 ++ ['"']), none)

/-- `Struct.MarshalFastJSON`: returns with zero bytes written when
`GetData()` is nil; otherwise `'{'`, the comma-separated members with raw
keys, `'}'` — unless a member fails, in which case the error returns
immediately (no `'}'`). -/
def fastStruct (f32R : α → List Char) (f64R : β → List Char) :
    Option (List (Str × Value α β)) → List Char → List Char × Option JErr
  | none, buf => (buf, none)
  | some entries, buf =>
      match fastEntries f32R f64R entries true (buf ++ ['{']) with
      | (b, none) => (b ++ ['}'], none)
      | (b, some e) => (b, some e)

/-- The member loop of `Struct.MarshalFastJSON`: comma before every member
but the first, then `'"' + key + "\":"` with the key text raw, then the
value; a value error is wrapped and returned at once. -/
def fastEntries (f32R : α → List Char) (f64R : β → List Char) :
    List (Str × Value α β) → Bool → List Char → List Char × Option JErr
  | [], _, buf => (buf, none)
  | (k, v) :: rest, first, buf =>
      let b1 := (if first then buf else buf ++ [',']) ++ '"' :: (k ++ ['"', ':'])
      match fastValue f32R f64R v b1 with
      | (b2, some e) => (b2, some (.mapEntry e))
      | (b2, none) => fastEntries f32R f64R rest false b2

/-- `ListValue.MarshalFastJSON`: returns with zero bytes written when
`GetValues()` is nil; otherwise `'['`, the elements, `']'` — element errors
are dropped on the floor (the call's result is not checked), so this never
fails. -/
def fastList (f32R : α → List Char) (f64R : β → List Char) :
    Option (List (Value α β)) → List Char → List Char × Option JErr
  | none, buf => (buf, none)
  | some vs, buf => (fastElems f32R f64R vs true (buf ++ ['[']) ++ [']'], none)

/-- The element loop of `ListValue.MarshalFastJSON`: comma before every
element but the first; the element's error (and only the error — its buffer
writes persist) is discarded. -/
def fastElems (f32R : α → List Char) (f64R : β → List Char) :
    List (Value α β) → Bool → List Char → List Char
  | [], _, buf => buf
  | v :: rest, first, buf =>
      let b1 := if first then buf else buf ++ [',']
      fastElems f32R f64R rest false (fastValue f32R f64R v b1).1

end

end Serializers

/-! ## Generic JSON values and a JSON reader

Both serializers' cross-checks in this repository (`TestJSONMarshal`)
compare outputs by parsing them back into a generic mapping and testing deep
equality.  `J` is that generic parse result; numbers are kept as their
literal token (no claim below compares numeric values, only bytes).
`parseJSON` is a standard recursive-descent JSON reader over the exact
grammar both serializers emit (no insignificant whitespace — neither
serializer ever writes any). -/

inductive J : Type where
  | jnull
  | jbool (b : Bool)
  | jnum (lit : Str)
  | jstr (s : Str)
  | jarr (elems : List J)
  | jobj (members : List (Str × J))

def isDig (c : Char) : Bool := '0' ≤ c && c ≤ '9'

def hexValOf (c : Char) : Option Nat :=
  let n := c.toNat
  if 48 ≤ n && n ≤ 57 then some (n - 48)
  else if 97 ≤ n && n ≤ 102 then some (n - 87)
  else if 65 ≤ n && n ≤ 70 then some (n - 55)
  else none

def hex4Of (a b c d : Char) : Option Nat := do
  let va ← hexValOf a
  let vb ← hexValOf b
  let vc ← hexValOf c
  let vd ← hexValOf d
  pure (((va * 16 + vb) * 16 + vc) * 16 + vd)

/-- The single-character JSON escapes. -/
def unescChar (e : Char) : Option Char :=
  if e = 'n' then some (Char.ofNat 10)
  else if e = 't' then some (Char.ofNat 9)
  else if e = 'r' then some (Char.ofNat 13)
  else if e = 'b' then some (Char.ofNat 8)
  else if e = 'f' then some (Char.ofNat 12)
  else if e = '"' ∨ e = '/' ∨ e = '\\' then some e
  else none

/-- String contents after the opening quote, unescaping until the closing
quote; `acc` holds the characters read so far, reversed. -/
def parseStrBody (acc : List Char) : List Char → Option (Str × List Char)
  | [] => none
  | c :: rest =>
      if c = '"' then some (acc.reverse, rest)
      else if c = '\\' then
        match rest with
        | 'u' :: a :: b :: cc :: d :: rest1 =>
            match hex4Of a b cc d with
            | some n => parseStrBody (Char.ofNat n :: acc) rest1
            | none => none
        | e :: rest1 =>
            match unescChar e with
            | some ch => parseStrBody (ch :: acc) rest1
            | none => none
        | [] => none
      else parseStrBody (c :: acc) rest

/-- A maximal run of decimal digits. -/
def digitRun : List Char → List Char × List Char
  | c :: cs =>
      if isDig c then
        let p := digitRun cs
        (c :: p.1, p.2)
      else ([], c :: cs)
  | [] => ([], [])

/-- A JSON number token, kept as its literal characters. -/
def parseNumTok (cs : List Char) : Option (Str × List Char) :=
  let p0 : List Char × List Char := match cs with
    | '-' :: r => (['-'], r)
    | _ => ([], cs)
  let pInt := digitRun p0.2
  if pInt.1.isEmpty then none
  else
    let pFrac : List Char × List Char := match pInt.2 with
      | '.' :: r =>
          let p := digitRun r
          if p.1.isEmpty then ([], pInt.2) else ('.' :: p.1, p.2)
      | _ => ([], pInt.2)
    let pExp : List Char × List Char := match pFrac.2 with
      | 'e' :: '+' :: r => let p := digitRun r; (['e', '+'] ++ p.1, p.2)
      | 'e' :: '-' :: r => let p := digitRun r; (['e', '-'] ++ p.1, p.2)
      | 'e' :: r => let p := digitRun r; ('e' :: p.1, p.2)
      | 'E' :: '+' :: r => let p := digitRun r; (['E', '+'] ++ p.1, p.2)
      | 'E' :: '-' :: r => let p := digitRun r; (['E', '-'] ++ p.1, p.2)
      | 'E' :: r => let p := digitRun r; ('E' :: p.1, p.2)
      | _ => ([], pFrac.2)
    some (p0.1 ++ pInt.1 ++ pFrac.1 ++ pExp.1, pExp.2)

mutual

/-- One JSON value (fuel-structural; any fuel beyond the input length is
enough, see the round-trip lemmas). -/
def parseVal : Nat → List Char → Option (J × List Char)
  | 0, _ => none
  | fuel + 1, cs =>
      match cs with
      | 'n' :: 'u' :: 'l' :: 'l' :: r => some (.jnull, r)
      | 't' :: 'r' :: 'u' :: 'e' :: r => some (.jbool true, r)
      | 'f' :: 'a' :: 'l' :: 's' :: 'e' :: r => some (.jbool false, r)
      | '"' :: r =>
          match parseStrBody [] r with
          | some (s, r1) => some (.jstr s, r1)
          | none => none
      | '[' :: r =>
          match r with
          | [] => none
          | c :: r0 =>
              if c = ']' then some (.jarr [], r0)
              else
                match parseElemsRest fuel (c :: r0) with
                | some (es, r1) => some (.jarr es, r1)
                | none => none
      | '{' :: r =>
          match r with
          | [] => none
          | c :: r0 =>
              if c = '}' then some (.jobj [], r0)
              else
                match parseMembersRest fuel (c :: r0) with
                | some (ms, r1) => some (.jobj ms, r1)
                | none => none
      | c :: r =>
          if c = '-' || isDig c then
            match parseNumTok (c :: r) with
            | some (lit, r1) => some (.jnum lit, r1)
            | none => none
          else none
      | [] => none

/-- One-or-more comma-separated array elements, then the closing `']'`. -/
def parseElemsRest : Nat → List Char → Option (List J × List Char)
  | 0, _ => none
  | fuel + 1, cs =>
      match parseVal fuel cs with
      | none => none
      | some (v, r) =>
          match r with
          | ',' :: r1 =>
              match parseElemsRest fuel r1 with
              | some (vs, r2) => some (v :: vs, r2)
              | none => none
          | ']' :: r1 => some ([v], r1)
          | _ => none

/-- One-or-more comma-separated object members, then the closing `'}'`. -/
def parseMembersRest : Nat → List Char → Option (List (Str × J) × List Char)
  | 0, _ => none
  | fuel + 1, cs =>
      match cs with
      | '"' :: r =>
          match parseStrBody [] r with
          | none => none
          | some (k, r1) =>
              match r1 with
              | ':' :: r2 =>
                  match parseVal fuel r2 with
                  | none => none
                  | some (v, r3) =>
                      match r3 with
                      | ',' :: r4 =>
                          match parseMembersRest fuel r4 with
                          | some (ms, r5) => some ((k, v) :: ms, r5)
                          | none => none
                      | '}' :: r4 => some ([(k, v)], r4)
                      | _ => none
              | _ => none
      | _ => none

end

/-- Parse a complete JSON document: one value consuming the whole input. -/
def parseJSON (cs : List Char) : Option J :=
  match parseVal (cs.length + 1) cs with
  | some (j, []) => some j
  | _ => none

/-! ## Rendering a `J` (used to factor both serializers' outputs) -/

/-- A quoted string with each character escaped by `esc`. -/
def jrenderStr (esc : Char → List Char) (s : Str) : List Char :=
  '"' :: (s.flatMap esc ++ ['"'])

mutual

/-- Render a `J` with string escaping `esc`, exactly the byte shape both
serializers produce (no whitespace, `,`-separated, `"key":value` members). -/
def jrender (esc : Char → List Char) : J → List Char
  | .jnull => "null".data
  | .jbool true => "true".data
  | .jbool false => "false".data
  | .jnum lit => lit
  | .jstr s => jrenderStr esc s
  | .jarr es => '[' :: (jrenderElems esc es ++ [']'])
  | .jobj ms => '{' :: (jrenderMembers esc ms ++ ['}'])

def jrenderElems (esc : Char → List Char) : List J → List Char
  | [] => []
  | [e] => jrender esc e
  | e :: f :: es => jrender esc e ++ ',' :: jrenderElems esc (f :: es)

def jrenderMembers (esc : Char → List Char) : List (Str × J) → List Char
  | [] => []
  | [(k, v)] => jrenderStr esc k ++ ':' :: jrender esc v
  | (k, v) :: p :: ms =>
      jrenderStr esc k ++ ':' :: (jrender esc v ++ ',' :: jrenderMembers esc (p :: ms))

end

mutual

/-- No number literal anywhere (the claims below never compare numbers
across the two serializers: no numeric variant succeeds under both). -/
def jnumFree : J → Bool
  | .jnull => true
  | .jbool _ => true
  | .jnum _ => false
  | .jstr _ => true
  | .jarr es => jnumFreeElems es
  | .jobj ms => jnumFreeMembers ms

def jnumFreeElems : List J → Bool
  | [] => true
  | e :: es => jnumFree e && jnumFreeElems es

def jnumFreeMembers : List (Str × J) → Bool
  | [] => true
  | (_, v) :: ms => jnumFree v && jnumFreeMembers ms

end

mutual

/-- Deep-equality normal form of a parse result: object members sorted by
key at every level.  Two parses are deeply equal as generic mappings (the
comparison `TestJSONMarshal` performs) exactly when their normal forms are
equal, given unique keys. -/
def canonJ : J → J
  | .jnull => .jnull
  | .jbool b => .jbool b
  | .jnum lit => .jnum lit
  | .jstr s => .jstr s
  | .jarr es => .jarr (canonElems es)
  | .jobj ms => .jobj (sortByKey (canonMembers ms))

def canonElems : List J → List J
  | [] => []
  | e :: es => canonJ e :: canonElems es

def canonMembers : List (Str × J) → List (Str × J)
  | [] => []
  | (k, v) :: ms => (k, canonJ v) :: canonMembers ms

end

/-! ## The cross-serializer class

`goodV` carves out the `Value` trees on which the current tree serializer
and the current streaming serializer both succeed and stay semantically
aligned.  Outside it each excluded shape is pinned by a counterexample or a
bug theorem below: numeric variants (the tree serializer has no case for the
width-preserving ones; the streaming serializer none for the legacy
`number_value`, whose failure a list swallows), nil struct/list payloads
(zero-byte streaming output), struct keys needing escaping (written raw by
the streaming path), duplicate keys (impossible for a Go map), and
timestamps whose year falls outside `time.MarshalJSON`'s range. -/

section GoodClass

variable {α β : Type}

/-- The year of the normalised instant passes `time.Time.MarshalJSON`'s
`[0, 9999]` range check. -/
def tsInRange (seconds nanos : Int) : Bool :=
  let p := unixNorm seconds nanos
  0 ≤ instantYear p.1 && instantYear p.1 < 10000

/-- No two entries share a key (Go map keys are unique). -/
def nodupKeysB {γ : Type} : List (Str × γ) → Bool
  | [] => true
  | p :: rest => rest.all (fun q => !(p.1 == q.1)) && nodupKeysB rest

mutual

def goodV : Value α β → Bool
  | .nullValue => true
  | .stringValue _ => true
  | .boolValue _ => true
  | .timestampValue s n => tsInRange s n
  | .structValue (some entries) =>
      entries.all (fun p => plainStr p.1) && nodupKeysB entries && goodEntries entries
  | .listValue (some vs) => goodElems vs
  | _ => false

def goodEntries : List (Str × Value α β) → Bool
  | [] => true
  | (_, v) :: rest => goodV v && goodEntries rest

def goodElems : List (Value α β) → Bool
  | [] => true
  | v :: rest => goodV v && goodElems rest

end

/-! The parse images of the two serializers on the class: what each output
parses to.  The streaming image keeps struct entries in map-iteration order;
the tree image sorts them (as `encoding/json` renders maps sorted). -/

mutual

def imgS : Value α β → J
  | .nullValue => .jnull
  | .stringValue s => .jstr s
  | .boolValue b => .jbool b
  | .timestampValue s n => .jstr (rfc3339NanoChars (unixNorm s n).1 (unixNorm s n).2)
  | .structValue (some entries) => .jobj (imgSEntries entries)
  | .listValue (some vs) => .jarr (imgSElems vs)
  | _ => .jnull

def imgSEntries : List (Str × Value α β) → List (Str × J)
  | [] => []
  | (k, v) :: rest => (k, imgS v) :: imgSEntries rest

def imgSElems : List (Value α β) → List J
  | [] => []
  | v :: rest => imgS v :: imgSElems rest

end

mutual

def imgT : Value α β → J
  | .nullValue => .jnull
  | .stringValue s => .jstr s
  | .boolValue b => .jbool b
  | .timestampValue s n => .jstr (rfc3339NanoChars (unixNorm s n).1 (unixNorm s n).2)
  | .structValue (some entries) => .jobj (sortByKey (imgTEntries entries))
  | .listValue (some vs) => .jarr (imgTElems vs)
  | _ => .jnull

def imgTEntries : List (Str × Value α β) → List (Str × J)
  | [] => []
  | (k, v) :: rest => (k, imgT v) :: imgTEntries rest

def imgTElems : List (Value α β) → List J
  | [] => []
  | v :: rest => imgT v :: imgTElems rest

end

end GoodClass

/-! ## The converter -/

/-- A dynamically-typed native Go value, the converter's input shapes:
nil, booleans, text, the fixed-width and platform-width integers, the two
float widths (abstract payloads), byte slices, instants, string-keyed maps
(also standing for record types, converted field-by-field the same way), and
non-byte slices.  `unknownv` stands for any input shape outside the
dispatch, carrying its type name. -/
inductive GoValue (α β : Type) : Type where
  | nilv
  | boolv (b : Bool)
  | strv (s : Str)
  | intv (n : Int)
  | int32v (n : Int)
  | int64v (n : Int)
  | uintv (n : Nat)
  | uint32v (n : Nat)
  | uint64v (n : Nat)
  | float32v (f : α)
  | float64v (f : β)
  | bytesv (bs : List Nat)
  | timev (seconds nanos : Int)
  | mapv (entries : List (Str × GoValue α β))
  | listv (elems : List (GoValue α β))
  | unknownv (typeName : Str)

/-- Conversion failure: an input shape with no defined mapping. -/
inductive ConvErr : Type where
  | unsupportedShape (typeName : Str)
deriving DecidableEq

section Converter

variable {α β : Type}

mutual

/-- Modelled from the spec: the converter `NewValue` of `pkg/helpers`
(its defining file is not in the snapshot; only its unit tests and callers
are).  The dispatch follows §4.1's table — nil → `Null`, bool → `Bool`,
fixed-width numerics to the width-matching variant, text → `String`, byte
sequence → base64 then `String`, instant → `Timestamp`, string-keyed
mapping → `Struct`, non-byte sequence → `List`, anything else →
`UnsupportedShape` — except for the platform-width rows, where the
repository's own unit tests pin different variants than the table:
`struct_test.go` requires `NewValue(32)` (platform `int`) to be
`Int64Value 32` and `NewValue(uint(32))` to be `Uint64Value 32`, so `intv`
maps to `Int64` and `uintv` to `Uint64` here. -/
def NewValue : GoValue α β → Except ConvErr (Value α β)
  | .nilv => .ok .nullValue
  | .boolv b => .ok (.boolValue b)
  | .strv s => .ok (.stringValue s)
  | .intv n => .ok (.int64Value n)
  | .int32v n => .ok (.int32Value n)
  | .int64v n => .ok (.int64Value n)
  | .uintv n => .ok (.uint64Value n)
  | .uint32v n => .ok (.uint32Value n)
  | .uint64v n => .ok (.uint64Value n)
  | .float32v f => .ok (.float32Value f)
  | .float64v f => .ok (.float64Value f)
  | .bytesv bs => .ok (.stringValue (base64Encode bs))
  | .timev s n => .ok (.timestampValue s n)
  | .mapv entries =>
      match NewValueEntries entries with
      | .ok converted => .ok (.structValue (some converted))
      | .error e => .error e
  | .listv elems =>
      match NewValueElems elems with
      | .ok converted => .ok (.listValue (some converted))
      | .error e => .error e
  | .unknownv t => .error (.unsupportedShape t)

def NewValueEntries :
    List (Str × GoValue α β) → Except ConvErr (List (Str × Value α β))
  | [] => .ok []
  | (k, gv) :: rest =>
      match NewValue gv with
      | .error e => .error e
      | .ok v =>
          match NewValueEntries rest with
          | .error e => .error e
          | .ok tail => .ok ((k, v) :: tail)

def NewValueElems : List (GoValue α β) → Except ConvErr (List (Value α β))
  | [] => .ok []
  | gv :: rest =>
      match NewValue gv with
      | .error e => .error e
      | .ok v =>
          match NewValueElems rest with
          | .error e => .error e
          | .ok tail => .ok (v :: tail)

end

end Converter

/-- Whether a `Value` is the `Int32` variant (claim C8 speaks of variants,
not payloads). -/
def isInt32Variant {α β : Type} : Value α β → Bool
  | .int32Value _ => true
  | _ => false

/-- The variants for which the tree serializer `Value.MarshalJSON` has no
case (they land in the `default` branch): the unset kind and the six
width-preserving numeric variants. -/
def treeUnhandled {α β : Type} : Value α β → Bool
  | .unset => true
  | .int32Value _ => true
  | .int64Value _ => true
  | .uint32Value _ => true
  | .uint64Value _ => true
  | .float32Value _ => true
  | .float64Value _ => true
  | _ => false

/-- An escaping routine that a JSON string reader undoes one character at a
time (the shape of the escape-inverse lemmas below). -/
def EscInv (esc : Char → List Char) : Prop :=
  ∀ (c : Char) (acc rest : List Char),
    parseStrBody acc (esc c ++ rest) = parseStrBody (c :: acc) rest

/-- Strictly key-sorted association list: the unique sorted arrangement of a
duplicate-free entry set. -/
def strictKeySorted {γ : Type} : List (Str × γ) → Prop :=
  List.Pairwise (fun p q => strLtB p.1 q.1 = true)

/-! ## Arithmetic facts about the decimal digit writer -/

/-- The numeric reading of a digit run, most significant first. -/
def digitsVal (ds : List Char) : Nat :=
  ds.foldl (fun a c => 10 * a + (c.toNat - 48)) 0

theorem digitCharSpec (k : Nat) (h : k < 10) :
    (Char.ofNat ('0'.toNat + k)).toNat = 48 + k ∧
      isDig (Char.ofNat ('0'.toNat + k)) = true := by
  interval_cases k <;> exact ⟨by decide, by decide⟩

theorem natDigitsOn_fuel : ∀ (f1 f2 n : Nat) (acc : List Char), n ≤ f1 → n ≤ f2 →
    natDigitsOn f1 n acc = natDigitsOn f2 n acc := by
  intro f1
  induction f1 with
  | zero =>
      intro f2 n acc h1 _
      interval_cases n
      cases f2 with
      | zero => rfl
      | succ f => simp [natDigitsOn]
  | succ f ih =>
      intro f2 n acc h1 h2
      by_cases hn : n < 10
      · cases f2 with
        | zero =>
            interval_cases n
            simp [natDigitsOn]
        | succ g => simp [natDigitsOn, hn]
      · have hf2 : ∃ g, f2 = g + 1 := by
          refine ⟨f2 - 1, ?_⟩; omega
        obtain ⟨g, rfl⟩ := hf2
        have hd : n / 10 ≤ f := by omega
        have hd2 : n / 10 ≤ g := by omega
        simp only [natDigitsOn, if_neg hn]
        exact ih g (n / 10) _ hd hd2

theorem natDigitsOn_acc : ∀ (f n : Nat) (acc : List Char),
    natDigitsOn f n acc = natDigitsOn f n [] ++ acc := by
  intro f
  induction f with
  | zero => intro n acc; simp [natDigitsOn]
  | succ g ih =>
      intro n acc
      by_cases hn : n < 10
      · simp [natDigitsOn, hn]
      · simp only [natDigitsOn, if_neg hn]
        rw [ih (n / 10) (_ :: acc), ih (n / 10) [_]]
        simp

theorem natChars_step (n : Nat) :
    natChars n = (if n < 10 then [] else natChars (n / 10)) ++
      [Char.ofNat ('0'.toNat + n % 10)] := by
  by_cases hn : n < 10
  · rw [natChars]
    cases hhn : n with
    | zero => simp [natDigitsOn, hn]
    | succ m => simp [natDigitsOn, hhn ▸ hn]
  · have h1 : natDigitsOn n n [] = natDigitsOn (n - 1) (n / 10) [Char.ofNat ('0'.toNat + n % 10)] := by
      obtain ⟨g, rfl⟩ : ∃ g, n = g + 1 := ⟨n - 1, by omega⟩
      simp only [natDigitsOn, if_neg hn, Nat.add_sub_cancel]
    rw [natChars, h1, natDigitsOn_acc,
        natDigitsOn_fuel (n - 1) (n / 10) (n / 10) [] (by omega) (le_refl _)]
    simp [natChars, if_neg hn]

theorem natChars_digit (n : Nat) : ∀ c ∈ natChars n, isDig c = true := by
  induction n using Nat.strong_induction_on with
  | _ n ih =>
    rw [natChars_step]
    intro c hc
    rcases List.mem_append.mp hc with h | h
    · by_cases hn : n < 10
      · simp [hn] at h
      · exact ih (n / 10) (by omega) c (by simpa [hn] using h)
    · rw [List.mem_singleton] at h
      subst h
      exact (digitCharSpec (n % 10) (by omega)).2

theorem natChars_ne_nil (n : Nat) : natChars n ≠ [] := by
  rw [natChars_step]; simp

theorem digitsVal_zeros (k : Nat) : ∀ ds : List Char,
    digitsVal (List.replicate k '0' ++ ds) = digitsVal ds := by
  induction k with
  | zero => intro ds; rfl
  | succ m ih =>
      intro ds
      have h : List.replicate (m + 1) '0' ++ ds = '0' :: (List.replicate m '0' ++ ds) := by
        simp [List.replicate_succ]
      rw [h]
      simpa [digitsVal] using ih ds

theorem digitsVal_natChars (n : Nat) : digitsVal (natChars n) = n := by
  induction n using Nat.strong_induction_on with
  | _ n ih =>
    rw [natChars_step]
    by_cases hn : n < 10
    · simp only [if_pos hn, List.nil_append, digitsVal, List.foldl_cons, List.foldl_nil,
        (digitCharSpec (n % 10) (by omega)).1]
      omega
    · have h1 := ih (n / 10) (by omega)
      simp only [digitsVal] at h1 ⊢
      simp only [if_neg hn, List.foldl_append, List.foldl_cons, List.foldl_nil, h1,
        (digitCharSpec (n % 10) (by omega)).1]
      omega

theorem natChars_length_le (k n : Nat) (hk : 0 < k) (h : n < 10 ^ k) :
    (natChars n).length ≤ k := by
  induction k generalizing n with
  | zero => omega
  | succ m ih =>
      rw [natChars_step]
      by_cases hn : n < 10
      · simp [hn]
      · have hm : 0 < m := by
          by_contra hm0
          have : m = 0 := by omega
          subst this
          simp at h
          omega
        have hlt : n / 10 < 10 ^ m := by
          have : 10 ^ (m + 1) = 10 ^ m * 10 := by ring
          omega
        have := ih (n / 10) hm hlt
        simp only [if_neg hn, List.length_append, List.length_singleton]
        omega

theorem padChars_length (w n : Nat) (h : (natChars n).length ≤ w) :
    (padChars w n).length = w := by
  simp [padChars]
  omega

theorem digitsVal_padChars (w n : Nat) : digitsVal (padChars w n) = n := by
  rw [padChars, digitsVal_zeros, digitsVal_natChars]

theorem padChars_digit (w n : Nat) : ∀ c ∈ padChars w n, isDig c = true := by
  intro c hc
  rcases List.mem_append.mp hc with h | h
  · rw [List.eq_of_mem_replicate h]; decide
  · exact natChars_digit n c h

/-! ## Facts about fractional-second stripping -/

theorem takeWhile_zero_replicate : ∀ l : List Char,
    l.takeWhile (fun c => c = '0') = List.replicate (l.takeWhile (fun c => c = '0')).length '0' := by
  intro l
  induction l with
  | nil => rfl
  | cons c t ih =>
      by_cases hc : c = '0'
      · subst hc
        simp only [List.takeWhile_cons]
        simpa [List.replicate_succ] using ih
      · simp [List.takeWhile_cons, hc]

theorem dropZeroTail_decomp (l : List Char) :
    ∃ k, l = dropZeroTail l ++ List.replicate k '0' := by
  refine ⟨(l.reverse.takeWhile (fun c => c = '0')).length, ?_⟩
  conv_lhs => rw [← List.reverse_reverse l, ← List.takeWhile_append_dropWhile
    (p := fun c => c = '0') (l := l.reverse)]
  rw [List.reverse_append, dropZeroTail]
  congr 1
  rw [takeWhile_zero_replicate l.reverse]
  simp [List.reverse_replicate]

theorem dropWhile_head_not : ∀ (l : List Char) (c : Char) (t : List Char),
    l.dropWhile (fun x => x = '0') = c :: t → c ≠ '0' := by
  intro l
  induction l with
  | nil => intro c t h; simp at h
  | cons a as ih =>
      intro c t h
      by_cases ha : a = '0'
      · subst ha
        rw [List.dropWhile_cons_of_pos (by simp)] at h
        exact ih c t h
      · rw [List.dropWhile_cons_of_neg (by simpa using ha)] at h
        cases h
        exact ha

theorem dropZeroTail_last (l : List Char) (h : dropZeroTail l ≠ []) :
    (dropZeroTail l).getLast? ≠ some '0' := by
  rw [dropZeroTail] at h ⊢
  rw [List.getLast?_reverse]
  cases hd : l.reverse.dropWhile (fun x => x = '0') with
  | nil => simp [hd] at h
  | cons c t =>
      have := dropWhile_head_not l.reverse c t hd
      simp [this]

theorem dropZeroTail_subset (l : List Char) : ∀ c ∈ dropZeroTail l, c ∈ l := by
  intro c hc
  rw [dropZeroTail, List.mem_reverse] at hc
  have := (List.dropWhile_sublist (l := l.reverse) (p := fun x => x = '0')).subset hc
  rwa [List.mem_reverse] at this

theorem foldl_val_zeros : ∀ (k a : Nat),
    (List.replicate k '0').foldl (fun a c => 10 * a + (c.toNat - 48)) a = a * 10 ^ k := by
  intro k
  induction k with
  | zero => intro a; simp
  | succ m ih =>
      intro a
      rw [List.replicate_succ, List.foldl_cons, ih]
      have : ('0'.toNat - 48) = 0 := by decide
      rw [this]
      ring

theorem digitsVal_append_zeros (ds : List Char) (k : Nat) :
    digitsVal (ds ++ List.replicate k '0') = digitsVal ds * 10 ^ k := by
  rw [digitsVal, List.foldl_append, foldl_val_zeros]
  rfl

/-- The content of "nanosecond precision with trailing zeros stripped": the
fraction is empty exactly for zero nanoseconds, and otherwise consists of
digits, does not end in `'0'`, and denotes exactly the nanosecond count once
scaled back to nine digits. -/
theorem nanoFrac_spec (n : Nat) (hn : n < 1000000000) :
    (nanoFrac n = [] ↔ n = 0) ∧
      (n ≠ 0 → ∃ ds, nanoFrac n = '.' :: ds ∧ ds ≠ [] ∧ ds.getLast? ≠ some '0' ∧
        (∀ c ∈ ds, isDig c = true) ∧ digitsVal ds * 10 ^ (9 - ds.length) = n ∧
        ds.length ≤ 9) := by
  have hlen : (padChars 9 n).length = 9 :=
    padChars_length 9 n (natChars_length_le 9 n (by omega) (by omega))
  obtain ⟨k, hk⟩ := dropZeroTail_decomp (padChars 9 n)
  have hval : digitsVal (dropZeroTail (padChars 9 n)) * 10 ^ k = n := by
    rw [← digitsVal_append_zeros, ← hk, digitsVal_padChars]
  have hklen : (dropZeroTail (padChars 9 n)).length + k = 9 := by
    have := congrArg List.length hk
    simp at this
    omega
  constructor
  · constructor
    · intro h0
      rw [nanoFrac] at h0
      by_cases he : (dropZeroTail (padChars 9 n)).isEmpty
      · rw [List.isEmpty_iff] at he
        rw [he] at hval
        simpa [digitsVal] using hval.symm
      · simp [he] at h0
    · intro h0
      subst h0
      rfl
  · intro h0
    refine ⟨dropZeroTail (padChars 9 n), ?_, ?_, ?_, ?_, ?_, ?_⟩
    · rw [nanoFrac]
      have he : ¬ (dropZeroTail (padChars 9 n)).isEmpty := by
        intro he
        rw [List.isEmpty_iff] at he
        rw [he] at hval
        simp [digitsVal] at hval
        omega
      simp [he]
    · intro he
      rw [he] at hval
      simp [digitsVal] at hval
      omega
    · refine dropZeroTail_last _ ?_
      intro he
      rw [he] at hval
      simp [digitsVal] at hval
      omega
    · intro c hc
      exact padChars_digit 9 n c (dropZeroTail_subset _ c hc)
    · have : 9 - (dropZeroTail (padChars 9 n)).length = k := by omega
      rw [this]
      exact hval
    · omega

/-! ## Plain characters pass through both escaping routines -/

theorem ne_of_toNat_ne {c d : Char} (h : c.toNat ≠ d.toNat) : c ≠ d :=
  fun he => h (congrArg Char.toNat he)

theorem plainChar_facts {c : Char} (h : plainChar c = true) :
    0x20 ≤ c.toNat ∧ c ≠ '"' ∧ c ≠ '\\' ∧ c ≠ '<' ∧ c ≠ '>' ∧ c ≠ '&' ∧
      c.toNat ≠ 0x2028 ∧ c.toNat ≠ 0x2029 := by
  simp only [plainChar, Bool.and_eq_true, decide_eq_true_eq] at h
  obtain ⟨⟨⟨⟨⟨⟨⟨h1, h2⟩, h3⟩, h4⟩, h5⟩, h6⟩, h7⟩, h8⟩ := h
  exact ⟨h1, ne_of_toNat_ne h2, ne_of_toNat_ne h3, ne_of_toNat_ne h4,
    ne_of_toNat_ne h5, ne_of_toNat_ne h6, h7, h8⟩

theorem escStd_plain {c : Char} (h : plainChar c = true) : escStd c = [c] := by
  obtain ⟨h1, h2, h3, h4, h5, h6, h7, h8⟩ := plainChar_facts h
  have hn : c ≠ '\n' := ne_of_toNat_ne (by intro he; rw [he] at h1; simp at h1)
  have hr : c ≠ '\r' := ne_of_toNat_ne (by intro he; rw [he] at h1; simp at h1)
  have ht : c ≠ '\t' := ne_of_toNat_ne (by intro he; rw [he] at h1; simp at h1)
  have hc : ¬ c.toNat < 0x20 := by omega
  simp [escStd, h2, h3, h4, h5, h6, h7, h8, hn, hr, ht, hc]

theorem escFast_plain {c : Char} (h : plainChar c = true) : escFast c = [c] := by
  obtain ⟨h1, h2, h3, _, _, _, h7, h8⟩ := plainChar_facts h
  have hn : c ≠ '\n' := ne_of_toNat_ne (by intro he; rw [he] at h1; simp at h1)
  have hr : c ≠ '\r' := ne_of_toNat_ne (by intro he; rw [he] at h1; simp at h1)
  have ht : c ≠ '\t' := ne_of_toNat_ne (by intro he; rw [he] at h1; simp at h1)
  have hc : ¬ c.toNat < 0x20 := by omega
  simp [escFast, h2, h3, h7, h8, hn, hr, ht, hc]

theorem flatMap_escStd_plain {s : Str} (h : plainStr s = true) :
    s.flatMap escStd = s := by
  induction s with
  | nil => rfl
  | cons c t ih =>
      simp only [plainStr, List.all_cons, Bool.and_eq_true] at h
      rw [List.flatMap_cons, escStd_plain h.1, ih (by simpa [plainStr] using h.2)]
      rfl

theorem flatMap_escFast_plain {s : Str} (h : plainStr s = true) :
    s.flatMap escFast = s := by
  induction s with
  | nil => rfl
  | cons c t ih =>
      simp only [plainStr, List.all_cons, Bool.and_eq_true] at h
      rw [List.flatMap_cons, escFast_plain h.1, ih (by simpa [plainStr] using h.2)]
      rfl

/-! ## Every character of an RFC3339 rendering is plain -/

theorem plainChar_of_isDig {c : Char} (h : isDig c = true) : plainChar c = true := by
  simp only [isDig, Bool.and_eq_true, decide_eq_true_eq] at h
  have h1 : ('0' : Char) ≤ c := h.1
  have h2 : c ≤ '9' := h.2
  rw [Char.le_def] at h1 h2
  simp only [plainChar, Bool.and_eq_true, decide_eq_true_eq]
  have hv1 : 48 ≤ c.toNat := h1
  have hv2 : c.toNat ≤ 57 := h2
  omega

theorem plain_of_mem_padChars {c : Char} {w m : Nat} (h : c ∈ padChars w m) :
    plainChar c = true :=
  plainChar_of_isDig (padChars_digit w m c h)

theorem plain_of_mem_yearChars {c : Char} {y : Int} (h : c ∈ yearChars y) :
    plainChar c = true := by
  rw [yearChars] at h
  rcases List.mem_append.mp h with h | h
  · have : c = '-' := by
      by_cases hy : y < 0 <;> simp [hy] at h
      exact h
    subst this; decide
  · exact plain_of_mem_padChars h

theorem plain_of_mem_nanoFrac {c : Char} {m : Nat} (h : c ∈ nanoFrac m) :
    plainChar c = true := by
  rw [nanoFrac] at h
  by_cases he : (dropZeroTail (padChars 9 m)).isEmpty <;> simp [he] at h
  rcases h with h | h
  · subst h; decide
  · exact plain_of_mem_padChars (dropZeroTail_subset _ c h)

theorem rfc3339_plain (s : Int) (n : Nat) :
    ∀ c ∈ rfc3339NanoChars s n, plainChar c = true := by
  intro c hc
  simp only [rfc3339NanoChars, List.mem_append, List.mem_cons, List.mem_singleton] at hc
  rcases hc with ((((((h | h) | h) | h) | h) | h) | h) | h
  · exact plain_of_mem_yearChars h
  · rcases h with h | h
    · subst h; decide
    · exact plain_of_mem_padChars h
  · rcases h with h | h
    · subst h; decide
    · exact plain_of_mem_padChars h
  · rcases h with h | h
    · subst h; decide
    · exact plain_of_mem_padChars h
  · rcases h with h | h
    · subst h; decide
    · exact plain_of_mem_padChars h
  · rcases h with h | h
    · subst h; decide
    · exact plain_of_mem_padChars h
  · exact plain_of_mem_nanoFrac h
  · rcases h with h | h
    · subst h; decide
    · simp at h

/-! ## Claim theorems: error handling and concrete behaviours -/

/-- Claim C1 — the code violates it.  `Struct.MarshalFastJSON` interpolates
the key text raw; with the single entry `a"b ↦ 1` the streaming serializer
returns success with the bytes `{"a"b":1}`, which no JSON reader accepts,
while the tree serializer escapes the same key and its output reparses to a
struct holding exactly that key. -/
theorem c1_raw_key_unparseable :
    ∀ (α β : Type) (f32R : α → List Char) (f64R : β → List Char) (numR : β → List Char),
    fastValue f32R f64R (.structValue (some [("a\"b".data, .int64Value 1)])) [] =
      ("\x7b\"a\"b\":1\x7d".data, none) ∧
    parseJSON "\x7b\"a\"b\":1\x7d".data = none ∧
    treeValue numR (Value.structValue (α := α) (β := β)
        (some [("a\"b".data, .boolValue true)])) =
      .ok "\x7b\"a\\\"b\":true\x7d".data ∧
    parseJSON "\x7b\"a\\\"b\":true\x7d".data = some (.jobj [("a\"b".data, .jbool true)]) :=
  fun _ _ _ _ _ => ⟨rfl, rfl, rfl, rfl⟩

/-- Claim C3 — the code violates it.  The element loop of
`ListValue.MarshalFastJSON` never checks the element's result: a list whose
only element lacks a rendering rule serializes to `[]` with a nil error, a
failing element mid-list leaves a bare comma (`[,"x"]`) still with a nil
error, even though marshaling that element alone reports `unknownType`. -/
theorem c3_list_swallows_element_error :
    ∀ (α β : Type) (f32R : α → List Char) (f64R : β → List Char),
    fastValue f32R f64R (.listValue (some [Value.unset])) [] = ("[]".data, none) ∧
    fastValue f32R f64R (.listValue (some [Value.unset, .stringValue "x".data])) [] =
      ("[,\"x\"]".data, none) ∧
    (fastValue f32R f64R Value.unset []).2 = some JErr.unknownType :=
  fun _ _ _ _ => ⟨rfl, rfl, rfl⟩

/-- Claim C4 — the code violates it.  The tree serializer `Value.MarshalJSON`
has no case for any width-preserving numeric variant: every one of them
(including `Int64Value 5`, which is what converting the native `int` input
`5` produces) falls into the `default` branch and returns the unknown-type
error instead of a JSON number. -/
theorem c4_tree_numeric_variants_fail :
    ∀ (α β : Type) (numR : β → List Char) (n : Int) (m : Nat) (a : α) (b : β),
    NewValue (α := α) (β := β) (.intv 5) = .ok (.int64Value 5) ∧
    treeValue numR (Value.int64Value (α := α) (β := β) 5) = .error .unknownType ∧
    treeValue numR (Value.int32Value (α := α) (β := β) n) = .error .unknownType ∧
    treeValue numR (Value.int64Value (α := α) (β := β) n) = .error .unknownType ∧
    treeValue numR (Value.uint32Value (α := α) (β := β) m) = .error .unknownType ∧
    treeValue numR (Value.uint64Value (α := α) (β := β) m) = .error .unknownType ∧
    treeValue numR (Value.float32Value (β := β) a) = .error .unknownType ∧
    treeValue numR (Value.float64Value (α := α) b) = .error .unknownType :=
  fun _ _ _ _ _ _ _ => ⟨rfl, rfl, rfl, rfl, rfl, rfl, rfl, rfl⟩

/-- Claim C5 — the streaming path renders `u64::MAX` as its exact digit
string (and a JSON reader returns that literal), but the claim's other cited
serializer, the tree path, cannot render the `Uint64` variant at all: it
returns the unknown-type error. -/
theorem c5_uint64_max_digits :
    ∀ (α β : Type) (f32R : α → List Char) (f64R : β → List Char) (numR : β → List Char),
    NewValue (α := α) (β := β) (.uint64v 18446744073709551615) =
      .ok (.uint64Value 18446744073709551615) ∧
    fastValue f32R f64R (Value.uint64Value (α := α) (β := β) 18446744073709551615) [] =
      ("18446744073709551615".data, none) ∧
    parseJSON "18446744073709551615".data = some (.jnum "18446744073709551615".data) ∧
    treeValue numR (Value.uint64Value (α := α) (β := β) 18446744073709551615) =
      .error .unknownType :=
  fun _ _ _ _ _ => ⟨rfl, rfl, rfl, rfl⟩

/-- Claim C6: every `Value` whose kind is unset, and every variant without a
rendering rule in `Value.MarshalJSON`, makes the tree serializer return the
typed unknown-type error — and, the result being an error, no output bytes. -/
theorem c6_tree_unhandled_is_error :
    ∀ (α β : Type) (numR : β → List Char) (v : Value α β), treeUnhandled v = true →
    treeValue numR v = .error .unknownType := by
  intro α β numR v h
  cases v <;> first
    | rfl
    | exact absurd h (by simp [treeUnhandled])

/-- Claim C6 witness: the unset kind is unhandled and serializing it errors. -/
theorem c6_witness :
    treeUnhandled (Value.unset : Value Unit Unit) = true ∧
      treeValue (fun _ => []) (Value.unset : Value Unit Unit) = .error .unknownType :=
  ⟨rfl, c6_tree_unhandled_is_error Unit Unit (fun _ => []) Value.unset rfl⟩

/-- Claim C8 — counterexample.  The repository's own tests pin the platform
`int` conversion: `NewValue(32)` is the `Int64` variant, not `Int32`. -/
theorem c8_counterexample_int_is_int64 :
    NewValue (α := Unit) (β := Unit) (.intv 32) = .ok (.int64Value 32) ∧
    isInt32Variant (Value.int64Value (α := Unit) (β := Unit) 32) = false :=
  ⟨rfl, rfl⟩

/-- Claim C8 as amended: fixed-width 32-bit signed inputs become the `Int32`
variant, while the platform-width `int` becomes `Int64` (as the unit tests
require). -/
theorem c8_amended_int_widths :
    ∀ (α β : Type) (n m : Int),
    NewValue (α := α) (β := β) (.int32v n) = .ok (.int32Value n) ∧
    isInt32Variant (Value.int32Value (α := α) (β := β) n) = true ∧
    NewValue (α := α) (β := β) (.intv m) = .ok (.int64Value m) ∧
    isInt32Variant (Value.int64Value (α := α) (β := β) m) = false :=
  fun _ _ _ _ => ⟨rfl, rfl, rfl, rfl⟩

/-- Claim C9: byte-sequence inputs convert to the `String` variant holding
the standard base64 text; in particular `[0xFF, 0xFF]` becomes `"//8="`. -/
theorem c9_bytes_to_base64_string :
    ∀ (α β : Type) (bs : List Nat),
    NewValue (α := α) (β := β) (.bytesv bs) = .ok (.stringValue (base64Encode bs)) ∧
    base64Encode [255, 255] = "//8=".data ∧
    NewValue (α := α) (β := β) (.bytesv [255, 255]) = .ok (.stringValue "//8=".data) :=
  fun _ _ _ => ⟨rfl, rfl, rfl⟩

/-- Claim C10: a nil struct map and a nil list slice make the streaming
serializer return success having written nothing at all, while the tree
serializer renders the nil-map struct as `null`. -/
theorem c10_nil_payload_serialization :
    ∀ (α β : Type) (f32R : α → List Char) (f64R : β → List Char) (numR : β → List Char)
      (buf : List Char),
    fastStruct f32R f64R (none : Option (List (Str × Value α β))) buf = (buf, none) ∧
    fastList f32R f64R (none : Option (List (Value α β))) buf = (buf, none) ∧
    fastValue f32R f64R (.structValue none) buf = (buf, none) ∧
    fastValue f32R f64R (.listValue none) buf = (buf, none) ∧
    treeStruct numR (none : Option (List (Str × Value α β))) = .ok "null".data ∧
    treeValue numR (Value.structValue (α := α) (β := β) none) = .ok "null".data :=
  fun _ _ _ _ _ _ => ⟨rfl, rfl, rfl, rfl, rfl, rfl⟩

/-- Claim C7: the streaming serializer writes every timestamp as a
double-quoted `RFC3339Nano` rendering of the normalised instant; the
fractional part carries the nanoseconds exactly (scaling back to nine digits
recovers the count), never ends in a zero digit, and is present precisely
when the nanosecond count is nonzero. -/
theorem c7_streaming_timestamp_rfc3339 :
    ∀ (α β : Type) (f32R : α → List Char) (f64R : β → List Char) (s n : Int)
      (buf : List Char),
    fastValue f32R f64R (.timestampValue s n) buf =
      (buf ++ '"' :: (rfc3339NanoChars (unixNorm s n).1 (unixNorm s n).2 ++ ['"']), none) ∧
    (unixNorm s n).2 < 1000000000 ∧
    (nanoFrac (unixNorm s n).2 = [] ↔ (unixNorm s n).2 = 0) ∧
    ((unixNorm s n).2 ≠ 0 → ∃ ds, nanoFrac (unixNorm s n).2 = '.' :: ds ∧ ds ≠ [] ∧
      ds.getLast? ≠ some '0' ∧ (∀ c ∈ ds, isDig c = true) ∧
      digitsVal ds * 10 ^ (9 - ds.length) = (unixNorm s n).2 ∧ ds.length ≤ 9) := by
  intro α β f32R f64R s n buf
  have hb : (unixNorm s n).2 < 1000000000 := by
    have h : n.fmod 1000000000 = n % 1000000000 := Int.fmod_eq_emod _ (by norm_num)
    simp only [unixNorm]
    omega
  obtain ⟨h1, h2⟩ := nanoFrac_spec (unixNorm s n).2 hb
  exact ⟨rfl, hb, h1, h2⟩

/-- Claim C7 witness: at `2022-05-06T14:44:25.123Z` the nanosecond count is
nonzero and the stripped fraction exists as specified. -/
theorem c7_witness :
    (unixNorm 1651848265 123000000).2 ≠ 0 ∧
    (∃ ds, nanoFrac (unixNorm 1651848265 123000000).2 = '.' :: ds ∧ ds ≠ [] ∧
      ds.getLast? ≠ some '0' ∧ (∀ c ∈ ds, isDig c = true) ∧
      digitsVal ds * 10 ^ (9 - ds.length) = (unixNorm 1651848265 123000000).2 ∧
      ds.length ≤ 9) :=
  ⟨by decide, (c7_streaming_timestamp_rfc3339 Unit Unit (fun _ => []) (fun _ => [])
    1651848265 123000000 []).2.2.2 (by decide)⟩

/-! ## The JSON reader undoes both escaping routines -/

theorem hexCharVal (k : Nat) (h : k < 16) : hexValOf (hexChar k) = some k := by
  interval_cases k <;> decide

theorem parseStrBody_uEscape (n : Nat) (hn : n < 0x110000) (acc rest : List Char) :
    parseStrBody acc (uEscape n ++ rest) = parseStrBody (Char.ofNat (n % 65536) :: acc) rest := by
  have e1 := hexCharVal (n / 4096 % 16) (Nat.mod_lt _ (by omega))
  have e2 := hexCharVal (n / 256 % 16) (Nat.mod_lt _ (by omega))
  have e3 := hexCharVal (n / 16 % 16) (Nat.mod_lt _ (by omega))
  have e4 := hexCharVal (n % 16) (Nat.mod_lt _ (by omega))
  have harith : ((n / 4096 % 16 * 16 + n / 256 % 16) * 16 + n / 16 % 16) * 16 + n % 16
      = n % 65536 := by omega
  rw [uEscape]
  simp only [List.cons_append, List.nil_append]
  rw [parseStrBody.eq_def]
  simp [hex4Of, e1, e2, e3, e4, harith]

theorem escInv_escStd : EscInv escStd := by
  intro c acc rest
  by_cases h1 : c = '"'
  · subst h1; rfl
  by_cases h2 : c = '\\'
  · subst h2; rfl
  by_cases h3 : c = '\n'
  · subst h3; rfl
  by_cases h4 : c = '\r'
  · subst h4; rfl
  by_cases h5 : c = '\t'
  · subst h5; rfl
  by_cases h6 : c.toNat < 0x20
  · simp only [escStd, if_neg h1, if_neg h2, if_neg h3, if_neg h4, if_neg h5, if_pos h6]
    rw [parseStrBody_uEscape c.toNat (by omega), Nat.mod_eq_of_lt (by omega),
      Char.ofNat_toNat]
  by_cases h7 : c = '<' ∨ c = '>' ∨ c = '&'
  · rcases h7 with h7 | h7 | h7 <;> (subst h7; rfl)
  by_cases h8 : c.toNat = 0x2028 ∨ c.toNat = 0x2029
  · have hc : c = Char.ofNat c.toNat := (Char.ofNat_toNat c).symm
    rcases h8 with h8 | h8 <;> (rw [hc, h8]; rfl)
  · simp only [escStd, if_neg h1, if_neg h2, if_neg h3, if_neg h4, if_neg h5, if_neg h6,
      if_neg h7, if_neg h8, List.cons_append, List.nil_append]
    rw [parseStrBody.eq_def]
    simp [h1, h2]

theorem escInv_escFast : EscInv escFast := by
  intro c acc rest
  by_cases h1 : c = '"'
  · subst h1; rfl
  by_cases h2 : c = '\\'
  · subst h2; rfl
  by_cases h3 : c = '\n'
  · subst h3; rfl
  by_cases h4 : c = '\r'
  · subst h4; rfl
  by_cases h5 : c = '\t'
  · subst h5; rfl
  by_cases h6 : c.toNat < 0x20
  · simp only [escFast, if_neg h1, if_neg h2, if_neg h3, if_neg h4, if_neg h5, if_pos h6]
    rw [parseStrBody_uEscape c.toNat (by omega), Nat.mod_eq_of_lt (by omega),
      Char.ofNat_toNat]
  by_cases h8 : c.toNat = 0x2028 ∨ c.toNat = 0x2029
  · have hc : c = Char.ofNat c.toNat := (Char.ofNat_toNat c).symm
    rcases h8 with h8 | h8 <;> (rw [hc, h8]; rfl)
  · simp only [escFast, if_neg h1, if_neg h2, if_neg h3, if_neg h4, if_neg h5, if_neg h6,
      if_neg h8, List.cons_append, List.nil_append]
    rw [parseStrBody.eq_def]
    simp [h1, h2]

/-- Unescaping a whole escaped run stops exactly at the closing quote. -/
theorem parseStrBody_flat {esc : Char → List Char} (he : EscInv esc) :
    ∀ (s : Str) (acc rest : List Char),
    parseStrBody acc (s.flatMap esc ++ '"' :: rest) = some (acc.reverse ++ s, rest) := by
  intro s
  induction s with
  | nil =>
      intro acc rest
      rw [List.flatMap_nil, List.nil_append, parseStrBody.eq_def]
      simp
  | cons c t ih =>
      intro acc rest
      rw [List.flatMap_cons, List.append_assoc, he c acc _, ih (c :: acc) rest]
      simp

/-- Parsing a rendered string (with a valid escape) recovers it. -/
theorem parseStrBody_render {esc : Char → List Char} (he : EscInv esc)
    (s : Str) (rest : List Char) :
    parseStrBody [] (s.flatMap esc ++ '"' :: rest) = some (s, rest) := by
  rw [parseStrBody_flat he s [] rest]
  rfl

/-! ## Round trip: the JSON reader inverts `jrender` (no-number values) -/

theorem jrender_head (esc : Char → List Char) (j : J) (hj : jnumFree j = true) :
    ∃ c t, jrender esc j = c :: t ∧ c ≠ ']' := by
  cases j with
  | jnull => exact ⟨'n', _, rfl, by decide⟩
  | jbool b => cases b with
      | true => exact ⟨'t', _, rfl, by decide⟩
      | false => exact ⟨'f', _, rfl, by decide⟩
  | jnum lit => simp [jnumFree] at hj
  | jstr s => exact ⟨'"', _, rfl, by decide⟩
  | jarr es => exact ⟨'[', _, rfl, by decide⟩
  | jobj ms => exact ⟨'{', _, rfl, by decide⟩

theorem parseVal_arr_step (fuel : Nat) (c : Char) (t : List Char) (hc : c ≠ ']') :
    parseVal (fuel + 1) ('[' :: (c :: t)) =
      (match parseElemsRest fuel (c :: t) with
       | some (es, r1) => some (J.jarr es, r1)
       | none => none) := by
  rw [parseVal.eq_def]
  simp [hc]

theorem parseVal_obj_step (fuel : Nat) (t : List Char) :
    parseVal (fuel + 1) ('{' :: ('"' :: t)) =
      (match parseMembersRest fuel ('"' :: t) with
       | some (ms, r1) => some (J.jobj ms, r1)
       | none => none) := by
  rw [parseVal.eq_def]
  simp

mutual

theorem rt_val (esc : Char → List Char) (he : EscInv esc) :
    ∀ (j : J) (fuel : Nat) (rest : List Char), jnumFree j = true →
      (jrender esc j).length < fuel →
      parseVal fuel (jrender esc j ++ rest) = some (j, rest)
  | j, 0, rest, _, hf => absurd hf (by omega)
  | .jnull, fuel + 1, rest, _, hf => by
      have harg : jrender esc .jnull ++ rest = 'n' :: ('u' :: ('l' :: ('l' :: rest))) := rfl
      rw [harg, parseVal.eq_def]
      simp
  | .jbool true, fuel + 1, rest, _, hf => by
      have harg : jrender esc (.jbool true) ++ rest
          = 't' :: ('r' :: ('u' :: ('e' :: rest))) := rfl
      rw [harg, parseVal.eq_def]
      simp
  | .jbool false, fuel + 1, rest, _, hf => by
      have harg : jrender esc (.jbool false) ++ rest
          = 'f' :: ('a' :: ('l' :: ('s' :: ('e' :: rest)))) := rfl
      rw [harg, parseVal.eq_def]
      simp
  | .jnum lit, fuel + 1, rest, hj, hf => by
      simp [jnumFree] at hj
  | .jstr s, fuel + 1, rest, _, hf => by
      have harg : jrender esc (.jstr s) ++ rest
          = '"' :: (s.flatMap esc ++ ('"' :: rest)) := by
        simp [jrender, jrenderStr]
      rw [harg, parseVal.eq_def]
      simp [parseStrBody_render he]
  | .jarr [], fuel + 1, rest, _, hf => by
      have harg : jrender esc (.jarr []) ++ rest = '[' :: (']' :: rest) := by
        simp [jrender, jrenderElems]
      rw [harg, parseVal.eq_def]
      simp
  | .jarr (e :: es), fuel + 1, rest, hj, hf => by
      have hfree : jnumFreeElems (e :: es) = true := by
        simpa [jnumFree] using hj
      have hlen : (jrenderElems esc (e :: es)).length + 1 < fuel := by
        have h2 : jrender esc (.jarr (e :: es))
            = '[' :: (jrenderElems esc (e :: es) ++ [']']) := rfl
        rw [h2] at hf
        simp only [List.length_cons, List.length_append, List.length_singleton] at hf
        omega
      have h1 : jnumFree e = true := by
        have hp : jnumFree e = true ∧ jnumFreeElems es = true := by
          simpa [jnumFreeElems, Bool.and_eq_true] using hfree
        exact hp.1
      obtain ⟨c, t, hct, hc⟩ := jrender_head esc e h1
      have hT : ∃ T, jrenderElems esc (e :: es) ++ ']' :: rest = c :: T := by
        cases es with
        | nil => exact ⟨t ++ ']' :: rest, by simp [jrenderElems, hct]⟩
        | cons x xs =>
            exact ⟨t ++ (',' :: jrenderElems esc (x :: xs) ++ ']' :: rest),
              by simp [jrenderElems, hct]⟩
      obtain ⟨T, hTeq⟩ := hT
      have harr : jrender esc (.jarr (e :: es)) ++ rest
          = '[' :: (jrenderElems esc (e :: es) ++ ']' :: rest) := by
        simp [jrender]
      rw [harr, hTeq, parseVal_arr_step fuel c T hc, ← hTeq,
        rt_elems esc he e es fuel rest hfree hlen]
  | .jobj [], fuel + 1, rest, _, hf => by
      have harg : jrender esc (.jobj []) ++ rest = '{' :: ('}' :: rest) := by
        simp [jrender, jrenderMembers]
      rw [harg, parseVal.eq_def]
      simp
  | .jobj ((k, v) :: ms), fuel + 1, rest, hj, hf => by
      have hfree : jnumFreeMembers ((k, v) :: ms) = true := by
        simpa [jnumFree] using hj
      have hlen : (jrenderMembers esc ((k, v) :: ms)).length + 1 < fuel := by
        have h2 : jrender esc (.jobj ((k, v) :: ms))
            = '{' :: (jrenderMembers esc ((k, v) :: ms) ++ ['}']) := rfl
        rw [h2] at hf
        simp only [List.length_cons, List.length_append, List.length_singleton] at hf
        omega
      have hT : ∃ T, jrenderMembers esc ((k, v) :: ms) ++ '}' :: rest = '"' :: T := by
        cases ms with
        | nil =>
            exact ⟨k.flatMap esc ++ ('"' :: (':' :: (jrender esc v ++ '}' :: rest))),
              by simp [jrenderMembers, jrenderStr]⟩
        | cons p ps =>
            exact ⟨k.flatMap esc ++ ('"' :: (':' :: (jrender esc v
                ++ (',' :: jrenderMembers esc (p :: ps) ++ '}' :: rest)))),
              by simp [jrenderMembers, jrenderStr]⟩
      obtain ⟨T, hTeq⟩ := hT
      have hobj : jrender esc (.jobj ((k, v) :: ms)) ++ rest
          = '{' :: (jrenderMembers esc ((k, v) :: ms) ++ '}' :: rest) := by
        simp [jrender]
      rw [hobj, hTeq, parseVal_obj_step fuel T, ← hTeq,
        rt_members esc he k v ms fuel rest hfree hlen]
  termination_by j _ _ _ _ => sizeOf j
  decreasing_by all_goals (simp_wf <;> omega)

theorem rt_elems (esc : Char → List Char) (he : EscInv esc) :
    ∀ (e : J) (es : List J) (fuel : Nat) (rest : List Char),
      jnumFreeElems (e :: es) = true →
      (jrenderElems esc (e :: es)).length + 1 < fuel →
      parseElemsRest fuel (jrenderElems esc (e :: es) ++ ']' :: rest) = some (e :: es, rest)
  | e, es, 0, rest, _, hf => absurd hf (by omega)
  | e, [], fuel + 1, rest, hfree, hf => by
      have h1 : jnumFree e = true := by
        simpa [jnumFreeElems] using hfree
      have hlen : (jrender esc e).length < fuel := by
        have h2 : jrenderElems esc [e] = jrender esc e := by simp [jrenderElems]
        rw [h2] at hf
        omega
      have hv := rt_val esc he e fuel (']' :: rest) h1 hlen
      have harg : jrenderElems esc [e] ++ ']' :: rest = jrender esc e ++ ']' :: rest := by
        simp [jrenderElems]
      rw [harg, parseElemsRest.eq_def]
      simp [hv]
  | e, x :: xs, fuel + 1, rest, hfree, hf => by
      have hpair : jnumFree e = true ∧ jnumFreeElems (x :: xs) = true := by
        simpa [jnumFreeElems, Bool.and_eq_true] using hfree
      obtain ⟨h1, h2⟩ := hpair
      have hsplit : jrenderElems esc (e :: x :: xs)
          = jrender esc e ++ ',' :: jrenderElems esc (x :: xs) := by
        simp [jrenderElems]
      have hle : (jrender esc e).length < fuel := by
        have := congrArg List.length hsplit
        simp at this
        omega
      have hlx : (jrenderElems esc (x :: xs)).length + 1 < fuel := by
        have := congrArg List.length hsplit
        simp at this
        omega
      have hv := rt_val esc he e fuel (',' :: (jrenderElems esc (x :: xs) ++ ']' :: rest)) h1 hle
      have hx := rt_elems esc he x xs fuel rest h2 hlx
      have harg : jrenderElems esc (e :: x :: xs) ++ ']' :: rest
          = jrender esc e ++ (',' :: (jrenderElems esc (x :: xs) ++ ']' :: rest)) := by
        rw [hsplit]
        simp
      rw [harg, parseElemsRest.eq_def]
      simp [hv, hx]
  termination_by e es _ _ _ _ => sizeOf (e :: es)
  decreasing_by all_goals (simp_wf <;> omega)

theorem rt_members (esc : Char → List Char) (he : EscInv esc) :
    ∀ (k : Str) (v : J) (ms : List (Str × J)) (fuel : Nat) (rest : List Char),
      jnumFreeMembers ((k, v) :: ms) = true →
      (jrenderMembers esc ((k, v) :: ms)).length + 1 < fuel →
      parseMembersRest fuel (jrenderMembers esc ((k, v) :: ms) ++ '}' :: rest)
        = some ((k, v) :: ms, rest)
  | k, v, ms, 0, rest, _, hf => absurd hf (by omega)
  | k, v, [], fuel + 1, rest, hfree, hf => by
      have h1 : jnumFree v = true := by
        simpa [jnumFreeMembers] using hfree
      have hlen : (jrender esc v).length < fuel := by
        have h2 : jrenderMembers esc [(k, v)]
            = jrenderStr esc k ++ ':' :: jrender esc v := by
          simp [jrenderMembers]
        rw [h2] at hf
        simp at hf
        omega
      have hv := rt_val esc he v fuel ('}' :: rest) h1 hlen
      have harg : jrenderMembers esc [(k, v)] ++ '}' :: rest
          = '"' :: ((k.flatMap esc) ++ ('"' :: (':' :: (jrender esc v ++ '}' :: rest)))) := by
        simp [jrenderMembers, jrenderStr]
      rw [harg, parseMembersRest.eq_def]
      simp [parseStrBody_render he, hv]
  | k, v, (k2, v2) :: ps, fuel + 1, rest, hfree, hf => by
      have hpair : jnumFree v = true ∧ jnumFreeMembers ((k2, v2) :: ps) = true := by
        simpa [jnumFreeMembers, Bool.and_eq_true] using hfree
      obtain ⟨h1, h2⟩ := hpair
      have hsplit : jrenderMembers esc ((k, v) :: (k2, v2) :: ps)
          = jrenderStr esc k ++ ':' :: (jrender esc v
              ++ ',' :: jrenderMembers esc ((k2, v2) :: ps)) := by
        simp [jrenderMembers]
      have hle : (jrender esc v).length < fuel := by
        have := congrArg List.length hsplit
        simp at this
        omega
      have hlx : (jrenderMembers esc ((k2, v2) :: ps)).length + 1 < fuel := by
        have := congrArg List.length hsplit
        simp at this
        omega
      have hv := rt_val esc he v fuel
        (',' :: (jrenderMembers esc ((k2, v2) :: ps) ++ '}' :: rest)) h1 hle
      have hx : parseMembersRest fuel (jrenderMembers esc ((k2, v2) :: ps) ++ '}' :: rest)
          = some ((k2, v2) :: ps, rest) :=
        rt_members esc he k2 v2 ps fuel rest h2 hlx
      have harg : jrenderMembers esc ((k, v) :: (k2, v2) :: ps) ++ '}' :: rest
          = '"' :: ((k.flatMap esc) ++ ('"' :: (':' :: (jrender esc v
              ++ (',' :: (jrenderMembers esc ((k2, v2) :: ps) ++ '}' :: rest)))))) := by
        rw [hsplit]
        simp [jrenderStr]
      rw [harg, parseMembersRest.eq_def]
      simp [parseStrBody_render he, hv, hx]
  termination_by _ v ms _ _ _ _ => sizeOf v + sizeOf ms
  decreasing_by all_goals (simp_wf <;> omega)

end

/-- A complete rendered document parses back to its value. -/
theorem parseJSON_jrender (esc : Char → List Char) (he : EscInv esc)
    (j : J) (hj : jnumFree j = true) : parseJSON (jrender esc j) = some j := by
  have h := rt_val esc he j ((jrender esc j).length + 1) [] hj (by omega)
  rw [List.append_nil] at h
  rw [parseJSON, h]

/-! ## Key order: transitivity, trichotomy, and sorted uniqueness -/

theorem char_eq_of_toNat_eq {a b : Char} (h : a.toNat = b.toNat) : a = b :=
  Char.ext (UInt32.ext (by simpa [Char.toNat] using h))

theorem strLtB_irrefl : ∀ a : Str, strLtB a a = false
  | [] => rfl
  | c :: t => by simp [strLtB, strLtB_irrefl t]

theorem strLtB_trans : ∀ a b c : Str, strLtB a b = true → strLtB b c = true →
    strLtB a c = true
  | [], [], _, h1, _ => by simp [strLtB] at h1
  | [], _ :: _, [], _, h2 => by simp [strLtB] at h2
  | [], _ :: _, _ :: _, _, _ => by simp [strLtB]
  | _ :: _, [], _, h1, _ => by simp [strLtB] at h1
  | _ :: _, _ :: _, [], _, h2 => by simp [strLtB] at h2
  | a :: as, b :: bs, c :: cs, h1, h2 => by
      simp only [strLtB] at h1 h2 ⊢
      by_cases hab : a.toNat < b.toNat
      · by_cases hbc : b.toNat < c.toNat
        · simp [show a.toNat < c.toNat by omega]
        · simp only [if_neg hbc] at h2
          by_cases hcb : c.toNat < b.toNat
          · simp [hcb] at h2
          · simp [show a.toNat < c.toNat by omega]
      · simp only [if_neg hab] at h1
        by_cases hba : b.toNat < a.toNat
        · simp [hba] at h1
        · simp only [if_neg hba] at h1
          by_cases hbc : b.toNat < c.toNat
          · simp [show a.toNat < c.toNat by omega]
          · simp only [if_neg hbc] at h2
            by_cases hcb : c.toNat < b.toNat
            · simp [hcb] at h2
            · simp only [if_neg hcb] at h2
              simp only [if_neg (show ¬ a.toNat < c.toNat by omega),
                if_neg (show ¬ c.toNat < a.toNat by omega)]
              exact strLtB_trans as bs cs h1 h2

theorem strLtB_eq_of_not : ∀ a b : Str, strLtB a b = false → strLtB b a = false → a = b
  | [], [], _, _ => rfl
  | [], _ :: _, h1, _ => by simp [strLtB] at h1
  | _ :: _, [], _, h2 => by simp [strLtB] at h2
  | a :: as, b :: bs, h1, h2 => by
      simp only [strLtB] at h1 h2
      by_cases hab : a.toNat < b.toNat
      · simp [hab] at h1
      · by_cases hba : b.toNat < a.toNat
        · simp [hba] at h2
        · simp only [if_neg hab, if_neg hba] at h1 h2
          have hc : a = b := char_eq_of_toNat_eq (by omega)
          rw [hc, strLtB_eq_of_not as bs h1 h2]

theorem insertByKey_perm {γ : Type} (p : Str × γ) :
    ∀ l : List (Str × γ), (insertByKey p l).Perm (p :: l)
  | [] => .refl _
  | q :: rest => by
      rw [insertByKey]
      by_cases h : strLtB q.1 p.1
      · simp only [if_pos h]
        exact ((insertByKey_perm p rest).cons q).trans (List.Perm.swap p q rest)
      · simp only [if_neg h]
        exact List.Perm.refl _

theorem sortByKey_perm {γ : Type} : ∀ l : List (Str × γ), (sortByKey l).Perm l
  | [] => .refl _
  | p :: rest =>
      (insertByKey_perm p (sortByKey rest)).trans ((sortByKey_perm rest).cons p)

theorem insertByKey_sorted {γ : Type} (p : Str × γ) :
    ∀ l : List (Str × γ), strictKeySorted l → (∀ q ∈ l, ¬ q.1 = p.1) →
      strictKeySorted (insertByKey p l)
  | [], _, _ => by simp [insertByKey, strictKeySorted]
  | q :: rest, hs, hf => by
      rw [insertByKey]
      obtain ⟨hhead, htail⟩ := List.pairwise_cons.mp hs
      by_cases h : strLtB q.1 p.1
      · simp only [if_pos h]
        refine List.pairwise_cons.mpr ⟨?_, insertByKey_sorted p rest htail
          (fun x hx => hf x (by simp [hx]))⟩
        intro x hx
        rcases List.mem_cons.mp ((insertByKey_perm p rest).mem_iff.mp hx) with hxp | hxr
        · rw [hxp]; exact h
        · exact hhead x hxr
      · simp only [if_neg h]
        have hqp : ¬ q.1 = p.1 := hf q (by simp)
        have hpq : strLtB p.1 q.1 = true := by
          cases hlt : strLtB p.1 q.1
          · exact absurd (strLtB_eq_of_not p.1 q.1 hlt (by simpa using h))
              (fun he => hqp he.symm)
          · rfl
        refine List.pairwise_cons.mpr ⟨?_, hs⟩
        intro x hx
        rcases List.mem_cons.mp hx with hxq | hxr
        · rw [hxq]; exact hpq
        · exact strLtB_trans p.1 q.1 x.1 hpq (hhead x hxr)

/-- Distinct-key hypothesis in `Pairwise` form. -/
theorem nodupKeysB_pairwise {γ : Type} (l : List (Str × γ)) :
    nodupKeysB l = true → List.Pairwise (fun p q : Str × γ => ¬ p.1 = q.1) l := by
  induction l with
  | nil => intro _; exact .nil
  | cons p rest ih =>
      intro h
      rw [nodupKeysB] at h
      obtain ⟨h1, h2⟩ := (Bool.and_eq_true _ _) ▸ h
      refine List.pairwise_cons.mpr ⟨?_, ih h2⟩
      intro q hq
      have := List.all_eq_true.mp h1 q hq
      simpa using this

theorem sortByKey_sorted {γ : Type} :
    ∀ l : List (Str × γ), List.Pairwise (fun p q : Str × γ => ¬ p.1 = q.1) l →
      strictKeySorted (sortByKey l)
  | [], _ => .nil
  | p :: rest, h => by
      obtain ⟨hhead, htail⟩ := List.pairwise_cons.mp h
      rw [sortByKey]
      refine insertByKey_sorted p (sortByKey rest) (sortByKey_sorted rest htail) ?_
      intro q hq
      have hqrest : q ∈ rest := (sortByKey_perm rest).subset hq
      exact fun he => hhead q hqrest he.symm

/-- Two strictly key-sorted arrangements of the same entries are equal. -/
theorem strictSorted_perm_eq {γ : Type} :
    ∀ l1 l2 : List (Str × γ), l1.Perm l2 → strictKeySorted l1 → strictKeySorted l2 →
      l1 = l2
  | [], l2, hp, _, _ => hp.nil_eq
  | p :: t1, [], hp, _, _ => by
      have := hp.length_eq
      simp at this
  | p :: t1, q :: t2, hp, h1, h2 => by
      obtain ⟨hh1, ht1⟩ := List.pairwise_cons.mp h1
      obtain ⟨hh2, ht2⟩ := List.pairwise_cons.mp h2
      have hpq : p = q := by
        have hmem : p ∈ q :: t2 := hp.subset (by simp)
        rcases List.mem_cons.mp hmem with he | hm
        · exact he
        · have hqp : strLtB q.1 p.1 = true := hh2 p hm
          have hqmem : q ∈ p :: t1 := hp.symm.subset (by simp)
          rcases List.mem_cons.mp hqmem with he2 | hm2
          · rw [he2] at hqp
            rw [strLtB_irrefl] at hqp
            cases hqp
          · have hpq2 : strLtB p.1 q.1 = true := hh1 q hm2
            have := strLtB_trans p.1 q.1 p.1 hpq2 hqp
            rw [strLtB_irrefl] at this
            cases this
      subst hpq
      rw [strictSorted_perm_eq t1 t2 hp.cons_inv ht1 ht2]

theorem jnumFreeMembers_eq_all : ∀ ms : List (Str × J),
    jnumFreeMembers ms = ms.all (fun p => jnumFree p.2)
  | [] => rfl
  | (k, v) :: rest => by
      rw [jnumFreeMembers, jnumFreeMembers_eq_all rest, List.all_cons]

/-! ## Canonical form: sorting is stable under permutation of unique keys -/

theorem canonMembers_eq_map : ∀ ms : List (Str × J),
    canonMembers ms = ms.map (fun p => (p.1, canonJ p.2))
  | [] => rfl
  | (k, v) :: rest => by
      rw [canonMembers, canonMembers_eq_map rest, List.map_cons]

theorem canonElems_eq_map : ∀ es : List J, canonElems es = es.map canonJ
  | [] => rfl
  | e :: rest => by rw [canonElems, canonElems_eq_map rest, List.map_cons]

theorem insertByKey_map {γ δ : Type} (g : γ → δ) (p : Str × γ) :
    ∀ l : List (Str × γ),
      insertByKey (p.1, g p.2) (l.map (fun q => (q.1, g q.2)))
        = (insertByKey p l).map (fun q => (q.1, g q.2))
  | [] => rfl
  | q :: rest => by
      simp only [List.map_cons, insertByKey]
      by_cases h : strLtB q.1 p.1
      · simp only [if_pos h, insertByKey_map g p rest, List.map_cons]
      · simp only [if_neg h, List.map_cons]

theorem sortByKey_map {γ δ : Type} (g : γ → δ) :
    ∀ l : List (Str × γ),
      sortByKey (l.map (fun q => (q.1, g q.2)))
        = (sortByKey l).map (fun q => (q.1, g q.2))
  | [] => rfl
  | p :: rest => by
      simp only [List.map_cons, sortByKey, sortByKey_map g rest, insertByKey_map g p]

theorem strictKeySorted_neq {γ : Type} {l : List (Str × γ)} (h : strictKeySorted l) :
    List.Pairwise (fun p q : Str × γ => ¬ p.1 = q.1) l := by
  refine h.imp ?_
  intro a b hlt he
  rw [he] at hlt
  rw [strLtB_irrefl] at hlt
  cases hlt

/-- Sorting twice is sorting once (unique keys). -/
theorem sortByKey_idem {γ : Type} (l : List (Str × γ))
    (h : List.Pairwise (fun p q : Str × γ => ¬ p.1 = q.1) l) :
    sortByKey (sortByKey l) = sortByKey l :=
  strictSorted_perm_eq _ _ (sortByKey_perm (sortByKey l))
    (sortByKey_sorted _ (strictKeySorted_neq (sortByKey_sorted l h)))
    (sortByKey_sorted l h)

/-! ## The serializer images: key sets, number-freeness, canonical equality -/

theorem imgTEntries_eq_map {α β : Type} : ∀ entries : List (Str × Value α β),
    imgTEntries entries = entries.map (fun p => (p.1, imgT p.2))
  | [] => rfl
  | (k, v) :: rest => by rw [imgTEntries, imgTEntries_eq_map rest, List.map_cons]

theorem imgSEntries_eq_map {α β : Type} : ∀ entries : List (Str × Value α β),
    imgSEntries entries = entries.map (fun p => (p.1, imgS p.2))
  | [] => rfl
  | (k, v) :: rest => by rw [imgSEntries, imgSEntries_eq_map rest, List.map_cons]

theorem pairwise_neq_map {γ δ : Type} (g : γ → δ) (l : List (Str × γ))
    (h : List.Pairwise (fun p q : Str × γ => ¬ p.1 = q.1) l) :
    List.Pairwise (fun p q : Str × δ => ¬ p.1 = q.1)
      (l.map (fun q => (q.1, g q.2))) := by
  rw [List.pairwise_map]
  exact h

mutual

theorem imgT_numFree {α β : Type} : ∀ v : Value α β, jnumFree (imgT v) = true
  | .unset => rfl
  | .nullValue => rfl
  | .numberValue _ => rfl
  | .float32Value _ => rfl
  | .float64Value _ => rfl
  | .int32Value _ => rfl
  | .int64Value _ => rfl
  | .uint32Value _ => rfl
  | .uint64Value _ => rfl
  | .stringValue _ => rfl
  | .boolValue _ => rfl
  | .timestampValue _ _ => rfl
  | .structValue none => rfl
  | .structValue (some entries) => by
      have h := imgTEntries_numFree (α := α) (β := β) entries
      have hperm := sortByKey_perm (imgTEntries (α := α) (β := β) entries)
      rw [imgT, jnumFree, jnumFreeMembers_eq_all]
      rw [jnumFreeMembers_eq_all] at h
      exact List.all_eq_true.mpr (fun x hx => List.all_eq_true.mp h x (hperm.subset hx))
  | .listValue none => rfl
  | .listValue (some vs) => by
      rw [imgT, jnumFree]
      exact imgTElems_numFree vs
  termination_by v => sizeOf v
  decreasing_by all_goals (simp_wf <;> omega)

theorem imgTEntries_numFree {α β : Type} : ∀ entries : List (Str × Value α β),
    jnumFreeMembers (imgTEntries entries) = true
  | [] => rfl
  | (k, v) :: rest => by
      rw [imgTEntries, jnumFreeMembers, imgT_numFree v, imgTEntries_numFree rest]
      rfl
  termination_by entries => sizeOf entries
  decreasing_by all_goals (simp_wf <;> omega)

theorem imgTElems_numFree {α β : Type} : ∀ vs : List (Value α β),
    jnumFreeElems (imgTElems vs) = true
  | [] => rfl
  | v :: rest => by
      rw [imgTElems, jnumFreeElems, imgT_numFree v, imgTElems_numFree rest]
      rfl
  termination_by vs => sizeOf vs
  decreasing_by all_goals (simp_wf <;> omega)

end

mutual

theorem imgS_numFree {α β : Type} : ∀ v : Value α β, jnumFree (imgS v) = true
  | .unset => rfl
  | .nullValue => rfl
  | .numberValue _ => rfl
  | .float32Value _ => rfl
  | .float64Value _ => rfl
  | .int32Value _ => rfl
  | .int64Value _ => rfl
  | .uint32Value _ => rfl
  | .uint64Value _ => rfl
  | .stringValue _ => rfl
  | .boolValue _ => rfl
  | .timestampValue _ _ => rfl
  | .structValue none => rfl
  | .structValue (some entries) => by
      rw [imgS, jnumFree]
      exact imgSEntries_numFree entries
  | .listValue none => rfl
  | .listValue (some vs) => by
      rw [imgS, jnumFree]
      exact imgSElems_numFree vs
  termination_by v => sizeOf v
  decreasing_by all_goals (simp_wf <;> omega)

theorem imgSEntries_numFree {α β : Type} : ∀ entries : List (Str × Value α β),
    jnumFreeMembers (imgSEntries entries) = true
  | [] => rfl
  | (k, v) :: rest => by
      rw [imgSEntries, jnumFreeMembers, imgS_numFree v, imgSEntries_numFree rest]
      rfl
  termination_by entries => sizeOf entries
  decreasing_by all_goals (simp_wf <;> omega)

theorem imgSElems_numFree {α β : Type} : ∀ vs : List (Value α β),
    jnumFreeElems (imgSElems vs) = true
  | [] => rfl
  | v :: rest => by
      rw [imgSElems, jnumFreeElems, imgS_numFree v, imgSElems_numFree rest]
      rfl
  termination_by vs => sizeOf vs
  decreasing_by all_goals (simp_wf <;> omega)

end

/-! ## Canonical forms of the two images agree on the cross-serializer class -/

mutual

theorem canon_img {α β : Type} : ∀ v : Value α β, goodV v = true →
    canonJ (imgT v) = canonJ (imgS v)
  | .unset, h => by simp [goodV] at h
  | .nullValue, _ => rfl
  | .numberValue _, h => by simp [goodV] at h
  | .float32Value _, h => by simp [goodV] at h
  | .float64Value _, h => by simp [goodV] at h
  | .int32Value _, h => by simp [goodV] at h
  | .int64Value _, h => by simp [goodV] at h
  | .uint32Value _, h => by simp [goodV] at h
  | .uint64Value _, h => by simp [goodV] at h
  | .stringValue _, _ => rfl
  | .boolValue _, _ => rfl
  | .timestampValue _ _, _ => rfl
  | .structValue none, h => by simp [goodV] at h
  | .structValue (some entries), h => by
      rw [goodV] at h
      obtain ⟨h12, hGE⟩ := (Bool.and_eq_true _ _) ▸ h
      obtain ⟨_, hNodup⟩ := (Bool.and_eq_true _ _) ▸ h12
      have hEnt := canon_img_entries entries hGE
      have hp1 := nodupKeysB_pairwise entries hNodup
      have hpA : List.Pairwise (fun p q : Str × J => ¬ p.1 = q.1)
          (imgTEntries entries) := by
        rw [imgTEntries_eq_map]
        exact pairwise_neq_map imgT entries hp1
      have hmap := pairwise_neq_map canonJ _ hpA
      show J.jobj (sortByKey (canonMembers (sortByKey (imgTEntries entries))))
          = J.jobj (sortByKey (canonMembers (imgSEntries entries)))
      rw [canonMembers_eq_map (sortByKey (imgTEntries entries)),
        ← sortByKey_map canonJ (imgTEntries entries),
        sortByKey_idem _ hmap, ← canonMembers_eq_map, hEnt]
  | .listValue none, h => by simp [goodV] at h
  | .listValue (some vs), h => by
      have hE : goodElems vs = true := by
        rw [goodV] at h
        exact h
      show J.jarr (canonElems (imgTElems vs)) = J.jarr (canonElems (imgSElems vs))
      rw [canon_img_elems vs hE]
  termination_by v _ => sizeOf v
  decreasing_by all_goals (simp_wf <;> omega)

theorem canon_img_entries {α β : Type} : ∀ entries : List (Str × Value α β),
    goodEntries entries = true →
    canonMembers (imgTEntries entries) = canonMembers (imgSEntries entries)
  | [], _ => rfl
  | (k, v) :: rest, h => by
      rw [goodEntries] at h
      obtain ⟨h1, h2⟩ := (Bool.and_eq_true _ _) ▸ h
      rw [imgTEntries, imgSEntries, canonMembers, canonMembers, canon_img v h1,
        canon_img_entries rest h2]
  termination_by entries _ => sizeOf entries
  decreasing_by all_goals (simp_wf <;> omega)

theorem canon_img_elems {α β : Type} : ∀ vs : List (Value α β),
    goodElems vs = true → canonElems (imgTElems vs) = canonElems (imgSElems vs)
  | [], _ => rfl
  | v :: rest, h => by
      rw [goodElems] at h
      obtain ⟨h1, h2⟩ := (Bool.and_eq_true _ _) ▸ h
      rw [imgTElems, imgSElems, canonElems, canonElems, canon_img v h1,
        canon_img_elems rest h2]
  termination_by vs _ => sizeOf vs
  decreasing_by all_goals (simp_wf <;> omega)

end

/-! ## The tree serializer renders exactly the (sorted) image -/

theorem stdKeyItem_render (k : Str) (v : List Char) :
    stdKeyItem k v = jrenderStr escStd k ++ ':' :: v := by
  simp [stdKeyItem, jrenderStr]

theorem objItems_ok : ∀ ms : List (Str × J),
    objItems (ms.map (fun p => (p.1, Except.ok (jrender escStd p.2))))
      = .ok (jrenderMembers escStd ms)
  | [] => rfl
  | [(k, v)] => by
      simp [objItems, jrenderMembers, stdKeyItem_render]
  | (k, v) :: p :: rest => by
      have ih := objItems_ok (p :: rest)
      simp only [List.map_cons] at ih ⊢
      simp [objItems, ih, jrenderMembers, stdKeyItem_render]
      rfl

theorem arrItems_ok : ∀ es : List J,
    arrItems (es.map (fun j => Except.ok (jrender escStd j)))
      = .ok (jrenderElems escStd es)
  | [] => rfl
  | [e] => by simp [arrItems, jrenderElems]
  | e :: p :: rest => by
      have ih := arrItems_ok (p :: rest)
      simp only [List.map_cons] at ih ⊢
      simp [arrItems, ih, jrenderElems]
      rfl

theorem rfc3339_plainStr (s : Int) (n : Nat) :
    plainStr (rfc3339NanoChars s n) = true :=
  List.all_eq_true.mpr (fun c hc => rfc3339_plain s n c hc)

mutual

theorem treeValue_good {α β : Type} (numR : β → List Char) :
    ∀ v : Value α β, goodV v = true →
      treeValue numR v = .ok (jrender escStd (imgT v))
  | .unset, h => by simp [goodV] at h
  | .nullValue, _ => rfl
  | .numberValue _, h => by simp [goodV] at h
  | .float32Value _, h => by simp [goodV] at h
  | .float64Value _, h => by simp [goodV] at h
  | .int32Value _, h => by simp [goodV] at h
  | .int64Value _, h => by simp [goodV] at h
  | .uint32Value _, h => by simp [goodV] at h
  | .uint64Value _, h => by simp [goodV] at h
  | .stringValue _, _ => rfl
  | .boolValue b, _ => by cases b <;> rfl
  | .timestampValue s n, h => by
      have hr : 0 ≤ instantYear (unixNorm s n).1 ∧ instantYear (unixNorm s n).1 < 10000 := by
        rw [goodV, tsInRange] at h
        obtain ⟨h1, h2⟩ := (Bool.and_eq_true _ _) ▸ h
        exact ⟨of_decide_eq_true h1, of_decide_eq_true h2⟩
      have hplain := flatMap_escStd_plain
        (rfc3339_plainStr (unixNorm s n).1 (unixNorm s n).2)
      rw [treeValue]
      rw [if_neg (by omega)]
      show Except.ok ('"' :: (rfc3339NanoChars (unixNorm s n).1 (unixNorm s n).2 ++ ['"']))
        = .ok (jrenderStr escStd (rfc3339NanoChars (unixNorm s n).1 (unixNorm s n).2))
      rw [jrenderStr, hplain]
  | .structValue none, h => by simp [goodV] at h
  | .structValue (some entries), h => by
      rw [goodV] at h
      obtain ⟨_, hGE⟩ := (Bool.and_eq_true _ _) ▸ h
      have hE := treeEntries_good numR entries hGE
      have hS : treeStruct numR (some entries)
          = .ok ('{' :: (jrenderMembers escStd (sortByKey (imgTEntries entries)) ++ ['}'])) := by
        rw [treeStruct, hE,
          sortByKey_map (fun j => Except.ok (jrender escStd j)) (imgTEntries entries),
          objItems_ok]
      rw [treeValue, hS]
      rfl
  | .listValue none, h => by simp [goodV] at h
  | .listValue (some vs), h => by
      have hE := treeElems_good numR vs (by rw [goodV] at h; exact h)
      have hS : treeList numR (some vs)
          = .ok ('[' :: (jrenderElems escStd (imgTElems vs) ++ [']'])) := by
        rw [treeList, hE, arrItems_ok]
      rw [treeValue, hS]
      rfl
  termination_by v _ => sizeOf v
  decreasing_by all_goals (simp_wf <;> omega)

theorem treeEntries_good {α β : Type} (numR : β → List Char) :
    ∀ entries : List (Str × Value α β), goodEntries entries = true →
      treeEntries numR entries
        = (imgTEntries entries).map (fun p => (p.1, Except.ok (jrender escStd p.2)))
  | [], _ => rfl
  | (k, v) :: rest, h => by
      rw [goodEntries] at h
      obtain ⟨h1, h2⟩ := (Bool.and_eq_true _ _) ▸ h
      rw [treeEntries, imgTEntries, List.map_cons, treeValue_good numR v h1,
        treeEntries_good numR rest h2]
  termination_by entries _ => sizeOf entries
  decreasing_by all_goals (simp_wf <;> omega)

theorem treeElems_good {α β : Type} (numR : β → List Char) :
    ∀ vs : List (Value α β), goodElems vs = true →
      treeElems numR vs = (imgTElems vs).map (fun j => Except.ok (jrender escStd j))
  | [], _ => rfl
  | v :: rest, h => by
      rw [goodElems] at h
      obtain ⟨h1, h2⟩ := (Bool.and_eq_true _ _) ▸ h
      rw [treeElems, imgTElems, List.map_cons, treeValue_good numR v h1,
        treeElems_good numR rest h2]
  termination_by vs _ => sizeOf vs
  decreasing_by all_goals (simp_wf <;> omega)

end

/-! ## The streaming serializer renders exactly the (unsorted) image -/

mutual

theorem fastValue_good {α β : Type} (f32R : α → List Char) (f64R : β → List Char) :
    ∀ (v : Value α β) (buf : List Char), goodV v = true →
      fastValue f32R f64R v buf = (buf ++ jrender escFast (imgS v), none)
  | .unset, _, h => by simp [goodV] at h
  | .nullValue, _, _ => rfl
  | .numberValue _, _, h => by simp [goodV] at h
  | .float32Value _, _, h => by simp [goodV] at h
  | .float64Value _, _, h => by simp [goodV] at h
  | .int32Value _, _, h => by simp [goodV] at h
  | .int64Value _, _, h => by simp [goodV] at h
  | .uint32Value _, _, h => by simp [goodV] at h
  | .uint64Value _, _, h => by simp [goodV] at h
  | .stringValue _, _, _ => rfl
  | .boolValue b, _, _ => by cases b <;> rfl
  | .timestampValue s n, buf, _ => by
      have hplain := flatMap_escFast_plain
        (rfc3339_plainStr (unixNorm s n).1 (unixNorm s n).2)
      show (buf ++ '"' :: (rfc3339NanoChars (unixNorm s n).1 (unixNorm s n).2 ++ ['"']), none)
        = (buf ++ jrenderStr escFast (rfc3339NanoChars (unixNorm s n).1 (unixNorm s n).2), none)
      rw [jrenderStr, hplain]
  | .structValue none, _, h => by simp [goodV] at h
  | .structValue (some entries), buf, h => by
      rw [goodV] at h
      obtain ⟨h12, hGE⟩ := (Bool.and_eq_true _ _) ▸ h
      obtain ⟨hK, _⟩ := (Bool.and_eq_true _ _) ▸ h12
      have hE := fastEntries_good f32R f64R entries true (buf ++ ['{']) hGE hK
      have hS : fastStruct f32R f64R (some entries) buf
          = (buf ++ '{' :: (jrenderMembers escFast (imgSEntries entries) ++ ['}']), none) := by
        rw [fastStruct, hE]
        cases entries with
        | nil => simp [imgSEntries, jrenderMembers]
        | cons p rest => simp
      rw [fastValue, hS]
      rfl
  | .listValue none, _, h => by simp [goodV] at h
  | .listValue (some vs), buf, h => by
      have hE := fastElems_good f32R f64R vs true (buf ++ ['['])
        (by rw [goodV] at h; exact h)
      have hS : fastList f32R f64R (some vs) buf
          = (buf ++ '[' :: (jrenderElems escFast (imgSElems vs) ++ [']']), none) := by
        rw [fastList, hE]
        cases vs with
        | nil => simp [imgSElems, jrenderElems]
        | cons p rest => simp
      rw [fastValue, hS]
      rfl
  termination_by v _ _ => sizeOf v
  decreasing_by all_goals (simp_wf <;> omega)

theorem fastEntries_good {α β : Type} (f32R : α → List Char) (f64R : β → List Char) :
    ∀ (entries : List (Str × Value α β)) (first : Bool) (buf : List Char),
      goodEntries entries = true → entries.all (fun p => plainStr p.1) = true →
      fastEntries f32R f64R entries first buf =
        (buf ++ (match entries, first with
          | [], _ => []
          | p :: rest, true => jrenderMembers escFast (imgSEntries (p :: rest))
          | p :: rest, false => ',' :: jrenderMembers escFast (imgSEntries (p :: rest))),
          none)
  | [], first, buf, _, _ => by simp [fastEntries]
  | (k, v) :: rest, first, buf, h, hK => by
      rw [goodEntries] at h
      obtain ⟨h1, h2⟩ := (Bool.and_eq_true _ _) ▸ h
      obtain ⟨hk1, hk2⟩ : plainStr k = true ∧ rest.all (fun p => plainStr p.1) = true := by
        rw [List.all_cons] at hK
        exact (Bool.and_eq_true _ _) ▸ hK
      have hv := fastValue_good f32R f64R v
        ((if first then buf else buf ++ [',']) ++ '"' :: (k ++ ['"', ':'])) h1
      have hrest := fastEntries_good f32R f64R rest false
        (((if first then buf else buf ++ [',']) ++ '"' :: (k ++ ['"', ':']))
          ++ jrender escFast (imgS v)) h2 hk2
      have step1 : fastEntries f32R f64R ((k, v) :: rest) first buf
          = fastEntries f32R f64R rest false
              (((if first then buf else buf ++ [',']) ++ '"' :: (k ++ ['"', ':']))
                ++ jrender escFast (imgS v)) := by
        simp only [fastEntries]
        rw [hv]
      rw [step1, hrest]
      cases rest with
      | nil =>
          cases first <;>
            simp [imgSEntries, jrenderMembers, jrenderStr, flatMap_escFast_plain hk1]
      | cons p ps =>
          cases first <;>
            simp [imgSEntries, jrenderMembers, jrenderStr, flatMap_escFast_plain hk1]
  termination_by entries _ _ _ _ => sizeOf entries
  decreasing_by all_goals (simp_wf <;> omega)

theorem fastElems_good {α β : Type} (f32R : α → List Char) (f64R : β → List Char) :
    ∀ (vs : List (Value α β)) (first : Bool) (buf : List Char), goodElems vs = true →
      fastElems f32R f64R vs first buf =
        buf ++ (match vs, first with
          | [], _ => []
          | p :: rest, true => jrenderElems escFast (imgSElems (p :: rest))
          | p :: rest, false => ',' :: jrenderElems escFast (imgSElems (p :: rest)))
  | [], first, buf, _ => by simp [fastElems]
  | v :: rest, first, buf, h => by
      rw [goodElems] at h
      obtain ⟨h1, h2⟩ := (Bool.and_eq_true _ _) ▸ h
      have hv := fastValue_good f32R f64R v (if first then buf else buf ++ [',']) h1
      have hrest := fastElems_good f32R f64R rest false
        ((if first then buf else buf ++ [',']) ++ jrender escFast (imgS v)) h2
      have step1 : fastElems f32R f64R (v :: rest) first buf
          = fastElems f32R f64R rest false
              ((if first then buf else buf ++ [',']) ++ jrender escFast (imgS v)) := by
        simp only [fastElems]
        rw [hv]
      rw [step1, hrest]
      cases rest with
      | nil => cases first <;> simp [imgSElems, jrenderElems]
      | cons p ps => cases first <;> simp [imgSElems, jrenderElems]
  termination_by vs _ _ _ => sizeOf vs
  decreasing_by all_goals (simp_wf <;> omega)

end

/-! ## Claim C2 -/

/-- Claim C2 — counterexample.  On a `Struct` with nil data both serializers
"succeed" (nil error), but the tree serializer emits `null` while the
streaming serializer emits nothing at all, and the empty byte string does
not parse — so the two parses cannot be deeply equal. -/
theorem c2_counterexample_nil_struct :
    treeValue (α := Unit) (β := Unit) (fun _ => []) (.structValue none) = .ok "null".data ∧
    fastValue (α := Unit) (β := Unit) (fun _ => []) (fun _ => [])
      (.structValue none) [] = ([], none) ∧
    parseJSON "null".data = some .jnull ∧
    parseJSON ([] : List Char) = none :=
  ⟨rfl, rfl, rfl, rfl⟩

/-- Claim C2 as amended: on every `Value` tree in the cross-serializer class
`goodV` — no numeric variant anywhere (the tree serializer fails on the
width-preserving ones and the streaming serializer fails on, or a list
swallows, the legacy `number_value`), no nil struct/list payloads, struct
keys free of characters needing escaping, unique keys, timestamps inside
`MarshalJSON`'s year range — both serializers succeed and their outputs
parse to generic JSON values with equal canonical (key-sorted) forms, i.e.
deeply equal generic mappings. -/
theorem c2_amended_cross_serializer_equiv :
    ∀ (α β : Type) (numR : β → List Char) (f32R : α → List Char) (f64R : β → List Char)
      (v : Value α β), goodV v = true →
    ∃ bt bs, treeValue numR v = .ok bt ∧ fastValue f32R f64R v [] = (bs, none) ∧
      ∃ jt js, parseJSON bt = some jt ∧ parseJSON bs = some js ∧ canonJ jt = canonJ js := by
  intro α β numR f32R f64R v h
  refine ⟨jrender escStd (imgT v), jrender escFast (imgS v),
    treeValue_good numR v h, ?_, imgT v, imgS v,
    parseJSON_jrender escStd escInv_escStd (imgT v) (imgT_numFree v),
    parseJSON_jrender escFast escInv_escFast (imgS v) (imgS_numFree v),
    canon_img v h⟩
  simpa using fastValue_good f32R f64R v [] h

/-- Claim C2 witness: a struct holding a bool, a list with an
escaping-heavy string value, and a timestamp is in the class, and the
amended equivalence holds on it. -/
theorem c2_witness :
    goodV (Value.structValue (α := Unit) (β := Unit) (some
      [("b".data, .boolValue true),
       ("a".data, .listValue (some [.stringValue "x\"y".data, .nullValue])),
       ("t".data, .timestampValue 1651848265 123000000)])) = true ∧
    (∃ bt bs,
      treeValue (fun _ => []) (Value.structValue (α := Unit) (β := Unit) (some
        [("b".data, .boolValue true),
         ("a".data, .listValue (some [.stringValue "x\"y".data, .nullValue])),
         ("t".data, .timestampValue 1651848265 123000000)])) = .ok bt ∧
      fastValue (fun _ => []) (fun _ => []) (Value.structValue (α := Unit) (β := Unit) (some
        [("b".data, .boolValue true),
         ("a".data, .listValue (some [.stringValue "x\"y".data, .nullValue])),
         ("t".data, .timestampValue 1651848265 123000000)])) [] = (bs, none) ∧
      ∃ jt js, parseJSON bt = some jt ∧ parseJSON bs = some js ∧ canonJ jt = canonJ js) :=
  ⟨by decide, c2_amended_cross_serializer_equiv Unit Unit (fun _ => []) (fun _ => [])
    (fun _ => []) _ (by decide)⟩
